import Mathlib

/-!
Verification of the bundle-manifest merge tool (src/json_parser.py).

The script merges per-model `metadata.json` descriptor files into a central
JSON manifest of model bundles.  This file gives a shallow embedding of its
data model and operations: Python dicts that the script reads with fixed keys
become Lean structures (keys the script reads with `.get` and a default become
`Option` fields), the in-place mutation of the bundle list becomes explicit
list updates, and the stdlib pieces the script relies on (`str.upper`,
`str.split`, `urllib.parse.quote`, `re` patterns it uses,
`datetime.strptime` with the fixed format "%B %d, %Y", stable `list.sort`)
are modelled as executable Lean functions.
-/

/-! ## Python string primitives -/

/-- ASCII upper-casing of one character, as `str.upper` acts on ASCII. -/
def upChar (c : Char) : Char :=
  if h : 97 ≤ c.toNat ∧ c.toNat ≤ 122 then
    Char.ofNatAux (c.toNat - 32) (Or.inl (by omega))
  else c

/-- ASCII lower-casing of one character, as `str.lower` acts on ASCII. -/
def downChar (c : Char) : Char :=
  if h : 65 ≤ c.toNat ∧ c.toNat ≤ 90 then
    Char.ofNatAux (c.toNat + 32) (Or.inl (by omega))
  else c

/-- Model of Python `str.upper` (ASCII range). -/
def pyUpper (s : String) : String := String.mk (s.data.map upChar)

/-- Model of Python `str.lower` (ASCII range). -/
def pyLower (s : String) : String := String.mk (s.data.map downChar)

/-- Does `pat` occur at the head of `l`?  (List-of-chars matching helper.) -/
def startsL : List Char → List Char → Bool
  | [], _ => true
  | _ :: _, [] => false
  | p :: ps, c :: cs => p == c && startsL ps cs

/-- Model of Python substring containment `pat in l`. -/
def containsL (pat : List Char) : List Char → Bool
  | [] => pat.isEmpty
  | c :: cs => startsL pat (c :: cs) || containsL pat cs

/-- Model of Python `pat in s` (substring test). -/
def pyContains (s pat : String) : Bool := containsL pat.data s.data

/-- Model of Python `str.split()` with no argument: split on whitespace runs,
dropping empty pieces. -/
def pySplitWs (s : String) : List String :=
  (s.split Char.isWhitespace).filter (fun t => t ≠ "")

/-! ## Data model

The manifest JSON the script manipulates.  Fields the script reads with a
plain subscript (`bundle["short_name"]`, `meta["ref"]`, ...) are required
fields; fields it reads through `.get` with a default are `Option` fields
(`none` models an absent key). -/

structure DownloadUri where
  sha256 : String
  url : String
deriving DecidableEq, Repr

structure FileRef where
  file_name : String
  download_uri : DownloadUri
deriving DecidableEq, Repr

structure Model where
  type : String
  artifact : FileRef
  metadata : FileRef
deriving DecidableEq, Repr

structure Overrides where
  folder : String
  lat : String
  long : String
deriving DecidableEq, Repr

structure Bundle where
  short_name : String
  display_name : String
  is_20hz : Bool
  ref : String
  environment : String
  runner : String
  index : Option Int
  minimum_selector_version : Option String
  generation : Option String
  build_time : Option String
  overrides : Overrides
  models : List Model
deriving DecidableEq, Repr

/-- One discovered `metadata.json` descriptor, together with `folder`, the
basename of the directory containing it (the script computes it from the
file path). -/
structure Descriptor where
  ref : String
  short_name : Option String
  display_name : Option String
  is_20hz : Option Bool
  build_time : Option String
  models : List Model
  folder : String
deriving DecidableEq, Repr

structure Manifest where
  tinygrad_ref : Option String
  bundles : List Bundle
deriving DecidableEq, Repr

/-- The command-line arguments that influence the merge. -/
structure Args where
  model_folder : Option String
  lat : String
  long : String
  generation : Option String
  version : Option String
  set_min_version : Option String
  sort_by_date : Bool
  tinygrad_ref : Option String
deriving DecidableEq, Repr

/-! ## URL builder (make_model_url) -/

/-- Upper-case hexadecimal digit, as `urllib.parse.quote` emits. -/
def hexDigit (n : Nat) : Char :=
  if n < 10 then Char.ofNat (48 + n) else Char.ofNat (55 + n)

/-- UTF-8 bytes of a code point (as `quote` encodes non-ASCII characters). -/
def utf8Bytes (n : Nat) : List Nat :=
  if n < 128 then [n]
  else if n < 2048 then [192 + n / 64, 128 + n % 64]
  else if n < 65536 then [224 + n / 4096, 128 + (n / 64) % 64, 128 + n % 64]
  else [240 + n / 262144, 128 + (n / 4096) % 64, 128 + (n / 64) % 64, 128 + n % 64]

/-- Characters `urllib.parse.quote` leaves unescaped with its default
`safe="/"`: ASCII letters, digits, `_.-~`, and the slash. -/
def isSafeChar (c : Char) : Bool :=
  c.isAlpha || c.isDigit || c == '_' || c == '.' || c == '-' || c == '~' || c == '/'

/-- Percent-encoding of one byte. -/
def pctByte (b : Nat) : List Char := [ '%', hexDigit (b / 16), hexDigit (b % 16)]

/-- One character of `quote` output. -/
def quoteChar (c : Char) : List Char :=
  if isSafeChar c then [c] else ((utf8Bytes c.toNat).map pctByte).flatten

/-- Model of `urllib.parse.quote(s)` with the default `safe="/"`. -/
def pyQuote (s : String) : String := String.mk ((s.data.map quoteChar).flatten)

/-- `make_model_url` from the script: fixed base, unescaped recompiled-dir
segment, quoted folder and file name. -/
def make_model_url (recompiled_dir folder file_name : String) : String :=
  "https://raw.githubusercontent.com/hoofpilot/models/master/recompiled/"
    ++ recompiled_dir ++ "/" ++ pyQuote folder ++ "/" ++ pyQuote file_name

/-! ## update_bundle_models -/

/-- The "big" filename test the script applies to both file names of a
descriptor model. -/
def containsBig (m : Model) : Bool :=
  pyContains (pyLower m.artifact.file_name) "big"
    || pyContains (pyLower m.metadata.file_name) "big"

/-- The filter at the top of `update_bundle_models` (and in the new-bundle
branch of `main`). -/
def filterBig (ms : List Model) : List Model := ms.filter (fun m => !containsBig m)

/-- The per-slot overwrite in `update_bundle_models`: file names and sha256
come from the matched descriptor model, both urls are recomputed. -/
def overwriteModel (recompiled_dir folder : String) (meta_model model : Model) : Model :=
  { model with
    artifact :=
      { file_name := meta_model.artifact.file_name,
        download_uri :=
          { sha256 := meta_model.artifact.download_uri.sha256,
            url := make_model_url recompiled_dir folder meta_model.artifact.file_name } },
    metadata :=
      { file_name := meta_model.metadata.file_name,
        download_uri :=
          { sha256 := meta_model.metadata.download_uri.sha256,
            url := make_model_url recompiled_dir folder meta_model.metadata.file_name } } }

/-- The body of the per-model loop in `update_bundle_models`: find the first
filtered descriptor model with the slot's `type` and overwrite from it; keep
the slot as is when none matches. -/
def applySlot (filtered : List Model) (recompiled_dir folder : String) (model : Model) : Model :=
  match filtered.find? (fun m => m.type == model.type) with
  | some meta_model => overwriteModel recompiled_dir folder meta_model model
  | none => model

/-- `update_bundle_models` from the script: each existing model slot is
overwritten from the first non-big descriptor model with the same `type`,
and left untouched when no such candidate exists. -/
def update_bundle_models (bundle : Bundle) (meta_models : List Model)
    (folder recompiled_dir : String) : Bundle :=
  let filtered_meta_models := filterBig meta_models
  { bundle with
    models := bundle.models.map (applySlot filtered_meta_models recompiled_dir folder) }

/-! ## get_generation_and_selector -/

/-- The leading-letter run of `re.match(r"([A-Za-z]+)", s)`, falling back to
the whole string when the match fails. -/
def snPfx (short_name : String) : String :=
  let p := short_name.data.takeWhile Char.isAlpha
  if p.isEmpty then short_name else String.mk p

/-- `b.get("index", 0)` as the script uses it as a sort/max key. -/
def idxKey (b : Bundle) : Int := b.index.getD 0

/-- Python `max(candidates, key=...)`: left fold keeping the current maximum,
replacing only on a strictly greater key (so the first maximal element wins);
`none` on the empty list (where Python raises). -/
def pyMaxBy (key : Bundle → Int) : List Bundle → Option Bundle
  | [] => none
  | b :: bs => some (bs.foldl (fun acc x => if key x > key acc then x else acc) b)

/-- Model of Python `s.startswith(pre)`. -/
def pyStartsWith (s pre : String) : Bool := startsL pre.data s.data

/-- The candidate list inside `get_generation_and_selector`. -/
def genCandidates (short_name : String) (bundles : List Bundle) : List Bundle :=
  bundles.filter (fun b =>
    pyStartsWith b.short_name (snPfx short_name)
      && b.generation.isSome && b.minimum_selector_version.isSome)

/-- `get_generation_and_selector` from the script.  The candidate filter
guarantees both fields are present, so the `getD ""` defaults are never
used. -/
def get_generation_and_selector (short_name : String) (bundles : List Bundle) :
    String × String :=
  match pyMaxBy idxKey (genCandidates short_name bundles) with
  | some latest => (latest.generation.getD "", latest.minimum_selector_version.getD "")
  | none => ("12", "12")

/-! ## Date extraction and parsing -/

/-- The leftmost match of `re.search(r'\(([^)]+)\)', s)`: scan for the first
position holding a parenthesis that is followed by a non-empty run of
non-close-paren characters and then a closing parenthesis; return that run. -/
def findParen : List Char → Option (List Char)
  | [] => none
  | c :: rest =>
    if c == '(' then
      let run := rest.takeWhile (fun x => x != ')')
      if run.isEmpty then findParen rest
      else if run.length < rest.length then some run
      else findParen rest
    else findParen rest

/-- `extract_date_from_display_name` from the script. -/
def extract_date_from_display_name (display_name : String) : String :=
  match findParen display_name.data with
  | some run => String.mk run
  | none => ""

/-- The English month names `%B` accepts, with their numbers (matched
case-insensitively by `strptime`). -/
def monthNames : List (List Char × Nat) :=
  [("january".data, 1), ("february".data, 2), ("march".data, 3),
   ("april".data, 4), ("may".data, 5), ("june".data, 6), ("july".data, 7),
   ("august".data, 8), ("september".data, 9), ("october".data, 10),
   ("november".data, 11), ("december".data, 12)]

/-- Strip a month name from the head of the (already lower-cased) input. -/
def stripMonth : List (List Char × Nat) → List Char → Option (Nat × List Char)
  | [], _ => none
  | (name, m) :: rest, l =>
    if name.isPrefixOf l then some (m, l.drop name.length) else stripMonth rest l

def digitsVal (l : List Char) : Nat := l.foldl (fun a c => a * 10 + (c.toNat - 48)) 0

/-- Days in a month of the proleptic Gregorian calendar `datetime` validates
against. -/
def daysInMonth (y m : Nat) : Nat :=
  if m = 2 then (if y % 4 = 0 ∧ (y % 100 ≠ 0 ∨ y % 400 = 0) then 29 else 28)
  else if m = 4 ∨ m = 6 ∨ m = 9 ∨ m = 11 then 30 else 31

/-- Model of `datetime.strptime(s, "%B %d, %Y")`: a month name
(case-insensitive), whitespace, a 1-2 digit day in range, a comma,
whitespace, exactly four year digits, end of input; the resulting date must
be a valid calendar date with year at least 1. -/
def strptimeBdY (s : String) : Option (Nat × Nat × Nat) :=
  let l := (pyLower s).data
  match stripMonth monthNames l with
  | none => none
  | some (m, r1) =>
    let ws1 := r1.takeWhile Char.isWhitespace
    if ws1.isEmpty then none else
    let r2 := r1.drop ws1.length
    let ds := r2.takeWhile Char.isDigit
    let r3 := r2.drop ds.length
    let d := digitsVal ds
    if (ds.length = 1 ∧ 1 ≤ d ∧ d ≤ 9) ∨ (ds.length = 2 ∧ 1 ≤ d ∧ d ≤ 31) then
      match r3 with
      | c :: r4 =>
        if c = ',' then
          let ws2 := r4.takeWhile Char.isWhitespace
          if ws2.isEmpty then none else
          let r5 := r4.drop ws2.length
          let ys := r5.takeWhile Char.isDigit
          let r6 := r5.drop ys.length
          let y := digitsVal ys
          if ys.length = 4 ∧ r6.isEmpty ∧ 1 ≤ y ∧ d ≤ daysInMonth y m then
            some (y, m, d)
          else none
        else none
      | [] => none
    else none

/-- `parse_date` from the script: parse "Month Day, Year", with
`datetime.min` (year 1, January 1) on any failure. -/
def parse_date (date_str : String) : Nat × Nat × Nat :=
  (strptimeBdY date_str).getD (1, 1, 1)

/-- A totally ordered key equivalent to comparing `datetime` values
lexicographically by (year, month, day). -/
def dateKeyOf (t : Nat × Nat × Nat) : Nat := t.1 * 10000 + t.2.1 * 100 + t.2.2

/-- The sort key `main` derives for a bundle under `--sort-by-date`. -/
def bundleDateKey (b : Bundle) : Nat :=
  dateKeyOf (parse_date (extract_date_from_display_name b.display_name))

/-! ## List update helpers

`main` keeps a dict `ref_to_bundle` mapping each `ref` to the bundle object
holding it (for duplicate refs, dict construction keeps the last occurrence),
and mutates bundles through it.  In the embedding, mutating the dict entry for
a ref becomes updating the last list element matching the ref. -/

def updateFirst {α : Type} (p : α → Bool) (f : α → α) : List α → List α
  | [] => []
  | a :: as => if p a then f a :: as else a :: updateFirst p f as

def updateLast {α : Type} (p : α → Bool) (f : α → α) (l : List α) : List α :=
  (updateFirst p f l.reverse).reverse

/-! ## The merge pipeline (main) -/

/-- The new-bundle index: `max` of present integer indices (0 when the list
is empty), plus one. -/
def newIndex (bundles : List Bundle) : Int :=
  (match bundles.map idxKey with
   | [] => 0
   | x :: xs => xs.foldl max x) + 1

/-- The auto-derived folder key `f"{short_name.split()[0].upper()} Models"`.
`headD ""` stands in for `split()[0]`, which Python only evaluates on a
short name holding at least one non-whitespace character. -/
def autoFolderKey (short_name : String) : String :=
  pyUpper ((pySplitWs short_name).headD "") ++ " Models"

/-- `args.model_folder or <auto>`: Python `or` falls through on `None` and on
the empty string. -/
def folderKey (args : Args) (short_name : String) : String :=
  match args.model_folder with
  | some s => if s = "" then autoFolderKey short_name else s
  | none => autoFolderKey short_name

/-- `meta.get("short_name", folder).upper()` from the top of the loop. -/
def descShortName (meta : Descriptor) : String :=
  pyUpper (meta.short_name.getD meta.folder)

/-- The new bundle constructed when a descriptor ref is absent from the
manifest.  `bundles` is the list before the append, as in the script. -/
def mkNewBundle (args : Args) (meta : Descriptor) (bundles : List Bundle) : Bundle :=
  let short_name := descShortName meta
  let fb := get_generation_and_selector short_name bundles
  { short_name := short_name,
    display_name := meta.display_name.getD short_name,
    is_20hz := meta.is_20hz.getD false,
    ref := meta.ref,
    environment := "development",
    runner := "tinygrad",
    index := some (newIndex bundles),
    minimum_selector_version := some (args.version.getD fb.2),
    generation := some (args.generation.getD fb.1),
    build_time := meta.build_time,
    overrides := { folder := folderKey args short_name, lat := args.lat, long := args.long },
    models := filterBig meta.models }

/-- The per-descriptor update applied to new and pre-existing bundles alike:
upper-case the short name, rewrite matching model slots, refresh
`display_name`, `is_20hz` and `build_time` from the descriptor when present. -/
def updatePhase (recompiled_dir_name : String) (meta : Descriptor) (b : Bundle) : Bundle :=
  let b1 : Bundle := { b with short_name := pyUpper b.short_name }
  let b2 := update_bundle_models b1 meta.models meta.folder recompiled_dir_name
  { b2 with
    display_name := meta.display_name.getD b2.display_name,
    is_20hz := meta.is_20hz.getD b2.is_20hz,
    build_time := match meta.build_time with
      | some t => some t
      | none => b2.build_time }

def refMatch (r : String) (b : Bundle) : Bool := b.ref == r

/-- One iteration of the descriptor loop in `main`: create the bundle when
its ref is absent, then run the update phase on the bundle holding the ref. -/
def processDescriptor (args : Args) (recompiled_dir_name : String)
    (bundles : List Bundle) (meta : Descriptor) : List Bundle :=
  let bundles1 :=
    if bundles.any (refMatch meta.ref) then bundles
    else bundles ++ [mkNewBundle args meta bundles]
  updateLast (refMatch meta.ref) (updatePhase recompiled_dir_name meta) bundles1

/-- The `--set-min-version` pass. -/
def setMinVersion (args : Args) (bundles : List Bundle) : List Bundle :=
  match args.set_min_version with
  | some v => bundles.map (fun b => { b with minimum_selector_version := some v })
  | none => bundles

/-- Stable insertion of one bundle into a list: before the first element
whose key is not smaller (so earlier elements win ties), as Python's stable
`list.sort` orders equal keys. -/
def insB (key : Bundle → Nat) (b : Bundle) : List Bundle → List Bundle
  | [] => [b]
  | c :: cs => if key b ≤ key c then b :: c :: cs else c :: insB key b cs

/-- Stable ascending sort by a key, modelling `list.sort(key=...)`. -/
def pySortKey (key : Bundle → Nat) : List Bundle → List Bundle
  | [] => []
  | b :: bs => insB key b (pySortKey key bs)

/-- `for idx, bundle in enumerate(bundles): bundle["index"] = idx`. -/
def reindexFrom (i : Nat) : List Bundle → List Bundle
  | [] => []
  | b :: bs => { b with index := some (Int.ofNat i) } :: reindexFrom (i + 1) bs

/-- The `--sort-by-date` pass: stable sort by parsed display-name date, then
reassign indices 0.. in the new order. -/
def sortStep (bundles : List Bundle) : List Bundle :=
  reindexFrom 0 (pySortKey bundleDateKey bundles)

/-- Everything `main` does to the in-memory manifest except the final
`--sort-by-date` pass: `--tinygrad-ref`, the descriptor loop,
`--set-min-version`. -/
def mergePhase (args : Args) (recompiled_dir_name : String) (m : Manifest)
    (descriptors : List Descriptor) : Manifest :=
  let m1 : Manifest :=
    match args.tinygrad_ref with
    | some r => { m with tinygrad_ref := some r }
    | none => m
  let bundles := descriptors.foldl (processDescriptor args recompiled_dir_name) m1.bundles
  { m1 with bundles := setMinVersion args bundles }

/-- The whole in-memory transformation of one run of `main`. -/
def runMerge (args : Args) (recompiled_dir_name : String) (m : Manifest)
    (descriptors : List Descriptor) : Manifest :=
  let m1 := mergePhase args recompiled_dir_name m descriptors
  if args.sort_by_date then { m1 with bundles := sortStep m1.bundles } else m1

/-! ## The fixpoint property behind idempotence -/

/-- After a descriptor has been processed, its ref is present and the bundle
carrying it is a fixpoint of the descriptor's update phase. -/
def SettledAt (rdn : String) (meta : Descriptor) (bs : List Bundle) : Prop :=
  bs.any (refMatch meta.ref) = true ∧
    ∀ b ∈ bs, b.ref = meta.ref → updatePhase rdn meta b = b

/-- Forget the index field (to speak about a bundle's identity modulo the
index reassignment of the sort pass). -/
def clearIdx (b : Bundle) : Bundle := { b with index := none }

/-! ## The big-model exclusion invariant -/

/-- Any big model found in the bundle list was already present, with the same
values, in the input manifest bundle carrying the same ref. -/
def BigOK (M : Manifest) (bs : List Bundle) : Prop :=
  ∀ b ∈ bs, ∀ m ∈ b.models, containsBig m = true →
    ∃ b0 ∈ M.bundles, b0.ref = b.ref ∧ m ∈ b0.models

/-! ## Upper-case short-name invariant (for C2) -/

/-- Every bundle carrying ref `r` has an upper-case-normalized short name. -/
def UpAt (r : String) (bs : List Bundle) : Prop :=
  ∀ b ∈ bs, b.ref = r → b.short_name = pyUpper b.short_name

/-! ## JSON loading layer (for the error-handling claim)

`main` reads the manifest and each descriptor with `json.load` and then
subscripts them.  A file is modelled as `Option Json`: `none` stands for a
file that is absent, unreadable or not valid JSON (all of which make
`json.load` raise), `some j` for a parsed document.  Subscript access on a
missing key raises, which the loader models with `Except.error`; `.get`
access is lenient.  Every error is propagated (the script catches nothing),
and the manifest file is written only after the whole merge finished. -/

inductive Json where
  | null
  | bool (b : Bool)
  | num (n : Int)
  | str (s : String)
  | arr (items : List Json)
  | obj (fields : List (String × Json))

/-- Python dict construction from JSON keeps the last value of a duplicated
key. -/
def lookupLast (kvs : List (String × Json)) (k : String) : Option Json :=
  kvs.foldl (fun acc p => if p.1 = k then some p.2 else acc) none

def jGet : Json → String → Option Json
  | Json.obj kvs, k => lookupLast kvs k
  | _, _ => none

def jStr? : Json → Option String
  | Json.str s => some s
  | _ => none

def jBool? : Json → Option Bool
  | Json.bool b => some b
  | _ => none

def jInt? : Json → Option Int
  | Json.num n => some n
  | _ => none

/-- `j[k]`: a subscript read, raising (`Except.error`) on a missing key. -/
def getReq (j : Json) (k : String) : Except String Json :=
  match jGet j k with
  | some v => Except.ok v
  | none => Except.error ("KeyError: " ++ k)

def asStr (j : Json) : Except String String :=
  match j with
  | Json.str s => Except.ok s
  | _ => Except.error "TypeError: not a string"

/-- Sequential `Except`-valued map, modelling a loop whose first raised
error aborts the run. -/
def mapME {α β : Type} (f : α → Except String β) : List α → Except String (List β)
  | [] => Except.ok []
  | a :: as => do
      let b ← f a
      let bs ← mapME f as
      Except.ok (b :: bs)

/-- Lenient string field (`.get`-style access with a default). -/
def jStrD (j : Json) (k : String) (d : String) : String :=
  ((jGet j k).bind jStr?).getD d

def parseDUriJ (j : Option Json) : DownloadUri :=
  match j with
  | some v => { sha256 := jStrD v "sha256" "", url := jStrD v "url" "" }
  | none => { sha256 := "", url := "" }

def parseFileRefJ (j : Option Json) : Except String FileRef :=
  match j with
  | some v => do
      let fn ← getReq v "file_name" >>= asStr
      Except.ok { file_name := fn, download_uri := parseDUriJ (jGet v "download_uri") }
  | none => Except.error "KeyError"

/-- One model record: the script subscripts `type`, `artifact.file_name`
and `metadata.file_name` on every descriptor model (the filter reads the
file names eagerly), so those are required; the sha256/url leaves are read
leniently here. -/
def parseModelJ (j : Json) : Except String Model := do
  let t ← getReq j "type" >>= asStr
  let art ← parseFileRefJ (jGet j "artifact")
  let md ← parseFileRefJ (jGet j "metadata")
  Except.ok { type := t, artifact := art, metadata := md }

def parseOverridesJ (j : Option Json) : Overrides :=
  match j with
  | some v => { folder := jStrD v "folder" "", lat := jStrD v "lat" "", long := jStrD v "long" "" }
  | none => { folder := "", lat := "", long := "" }

/-- One manifest bundle: at load time `main` subscripts only `bundle["ref"]`
(building the ref map); every other field is reached later or through
`.get`, so the parse is lenient about them. -/
def parseBundleJ (j : Json) : Except String Bundle := do
  let r ← getReq j "ref" >>= asStr
  let ms ← mapME parseModelJ (match jGet j "models" with
    | some (Json.arr items) => items
    | _ => [])
  Except.ok {
    short_name := jStrD j "short_name" "",
    display_name := jStrD j "display_name" "",
    is_20hz := ((jGet j "is_20hz").bind jBool?).getD false,
    ref := r,
    environment := jStrD j "environment" "",
    runner := jStrD j "runner" "",
    index := (jGet j "index").bind jInt?,
    minimum_selector_version := (jGet j "minimum_selector_version").bind jStr?,
    generation := (jGet j "generation").bind jStr?,
    build_time := (jGet j "build_time").bind jStr?,
    overrides := parseOverridesJ (jGet j "overrides"),
    models := ms }

/-- Python `for x in v` iteration over a JSON value, as the dict
comprehension over `driving_models_json["bundles"]` performs it: a list
yields its elements, a string its one-character substrings, a dict its
keys; null, booleans and numbers are not iterable and raise TypeError.
The script never checks that `bundles` is a sequence — it only iterates
it. -/
def jElems : Json → Except String (List Json)
  | Json.arr items => Except.ok items
  | Json.str s => Except.ok (s.data.map (fun c => Json.str (String.mk [c])))
  | Json.obj kvs => Except.ok (kvs.map (fun p => Json.str p.1))
  | _ => Except.error "TypeError: not iterable"

/-- The manifest load: a missing/unreadable/invalid file is a fatal
ParseError, a missing `bundles` key a fatal KeyError, and the dict
comprehension then iterates the `bundles` value (whatever its type) and
subscripts each element.  When a non-list `bundles` value yields no
elements (empty string, empty mapping) the load succeeds with an empty
bundle list — exactly as the script carries on; the typed merge then
treats it as an empty list, which matches the script as long as nothing is
appended to or sorted in that container (see the C9 counterexample, which
uses no descriptors and no sort flag). -/
def parseManifestJ (file : Option Json) : Except String Manifest :=
  match file with
  | none => Except.error "ParseError: manifest absent, unreadable or invalid JSON"
  | some j =>
    match jGet j "bundles" with
    | none => Except.error "KeyError: bundles"
    | some v => do
        let items ← jElems v
        let bs ← mapME parseBundleJ items
        Except.ok { tinygrad_ref := (jGet j "tinygrad_ref").bind jStr?, bundles := bs }

/-- One descriptor load: `meta["ref"]` and `meta["models"]` are subscripted
by the loop body, so they are required. -/
def parseDescriptorJ (folder : String) (file : Option Json) : Except String Descriptor :=
  match file with
  | none => Except.error "ParseError: descriptor invalid JSON"
  | some j => do
      let r ← getReq j "ref" >>= asStr
      let marr ← (match jGet j "models" with
        | some (Json.arr items) => Except.ok items
        | some _ => Except.error "TypeError: models is not a sequence"
        | none => Except.error "KeyError: models")
      let ms ← mapME parseModelJ marr
      Except.ok {
        ref := r,
        short_name := (jGet j "short_name").bind jStr?,
        display_name := (jGet j "display_name").bind jStr?,
        is_20hz := (jGet j "is_20hz").bind jBool?,
        build_time := (jGet j "build_time").bind jStr?,
        models := ms,
        folder := folder }

/-- The whole run over raw file contents: load everything, merge, and
produce the manifest to be written.  Any load error aborts before the write. -/
def runChecked (args : Args) (recompiled_dir_name : String) (mFile : Option Json)
    (dFiles : List (String × Option Json)) : Except String Manifest := do
  let m ← parseManifestJ mFile
  let ds ← mapME (fun p => parseDescriptorJ p.1 p.2) dFiles
  Except.ok (runMerge args recompiled_dir_name m ds)

def exceptOk {ε α : Type} : Except ε α → Bool
  | Except.ok _ => true
  | Except.error _ => false

def duriToJson (u : DownloadUri) : Json :=
  Json.obj [("sha256", Json.str u.sha256), ("url", Json.str u.url)]

def fileRefToJson (f : FileRef) : Json :=
  Json.obj [("file_name", Json.str f.file_name), ("download_uri", duriToJson f.download_uri)]

def modelToJson (m : Model) : Json :=
  Json.obj [("type", Json.str m.type), ("artifact", fileRefToJson m.artifact),
    ("metadata", fileRefToJson m.metadata)]

def optStrToJson (s : Option String) : Json :=
  match s with
  | some v => Json.str v
  | none => Json.null

def bundleToJson (b : Bundle) : Json :=
  Json.obj [("short_name", Json.str b.short_name),
    ("display_name", Json.str b.display_name),
    ("is_20hz", Json.bool b.is_20hz),
    ("ref", Json.str b.ref),
    ("environment", Json.str b.environment),
    ("runner", Json.str b.runner),
    ("index", match b.index with | some i => Json.num i | none => Json.null),
    ("minimum_selector_version", optStrToJson b.minimum_selector_version),
    ("generation", optStrToJson b.generation),
    ("build_time", optStrToJson b.build_time),
    ("overrides", Json.obj [("folder", Json.str b.overrides.folder),
      ("lat", Json.str b.overrides.lat), ("long", Json.str b.overrides.long)]),
    ("models", Json.arr (b.models.map modelToJson))]

def manifestToJson (m : Manifest) : Json :=
  Json.obj [("tinygrad_ref", optStrToJson m.tinygrad_ref),
    ("bundles", Json.arr (m.bundles.map bundleToJson))]

/-- The manifest file after a run: overwritten with the merged document on
success, untouched when the run aborted with an error. -/
def finalManifestFile (args : Args) (recompiled_dir_name : String) (mFile : Option Json)
    (dFiles : List (String × Option Json)) : Option Json :=
  match runChecked args recompiled_dir_name mFile dFiles with
  | Except.ok m => some (manifestToJson m)
  | Except.error _ => mFile

/-- A present `bundles` value that makes the load fail: a non-iterable
value raises TypeError at the comprehension, and a nonempty string or
mapping yields elements that fail the per-bundle `ref` subscript.  A
list never fails here, and an empty string or empty mapping yields no
elements, so the load completes. -/
def badBundlesValue : Json → Bool
  | Json.arr _ => false
  | Json.str s => !s.data.isEmpty
  | Json.obj kvs => !kvs.isEmpty
  | _ => true

/-- The manifest-side fatal conditions: file absent/unreadable/invalid
JSON, missing `bundles` key, or a `bundles` value whose iteration fails
(see badBundlesValue). -/
def badManifestFile (mFile : Option Json) : Bool :=
  match mFile with
  | none => true
  | some j =>
    match jGet j "bundles" with
    | none => true
    | some v => badBundlesValue v

def badDescriptorFile (f : String × Option Json) : Bool :=
  match f.2 with
  | none => true
  | some j => (jGet j "ref").isNone || (jGet j "models").isNone

def badInput (mFile : Option Json) (dFiles : List (String × Option Json)) : Bool :=
  badManifestFile mFile || dFiles.any badDescriptorFile

/-! ## Concrete sample data -/

def argsDefault : Args :=
  { model_folder := none, lat := ".0", long := ".3", generation := none,
    version := none, set_min_version := none, sort_by_date := false,
    tinygrad_ref := none }

def argsSort : Args := { argsDefault with sort_by_date := true }

def uriA : DownloadUri := { sha256 := "aa11", url := "u" }

def mkModelX (t fa fm : String) : Model :=
  { type := t,
    artifact := { file_name := fa, download_uri := uriA },
    metadata := { file_name := fm, download_uri := uriA } }

def modelBig : Model := mkModelX "vision" "driving_BIG.onnx" "big_metadata.json"

def modelSmall : Model := mkModelX "vision" "driving.onnx" "driving_metadata.json"

def ovX : Overrides := { folder := "X Models", lat := ".0", long := ".3" }

def mkBundleX (sn dn r : String) (idx : Option Int) (gen msv : Option String)
    (ms : List Model) : Bundle :=
  { short_name := sn, display_name := dn, is_20hz := false, ref := r,
    environment := "development", runner := "tinygrad", index := idx,
    minimum_selector_version := msv, generation := gen, build_time := none,
    overrides := ovX, models := ms }

def bundleWithBig : Bundle :=
  mkBundleX "B" "B (June 1, 2024)" "r1" (some 1) (some "12") (some "12") [modelBig]

def manifestWithBig : Manifest := { tinygrad_ref := none, bundles := [bundleWithBig] }

def bundleLower : Bundle := mkBundleX "abc" "Foo" "r9" (some 1) none none []

def manifestLower : Manifest := { tinygrad_ref := none, bundles := [bundleLower] }

def bundleA : Bundle :=
  mkBundleX "A" "A (June 2, 2024)" "r1" (some 1) (some "12") (some "12") [modelSmall]

def descA : Descriptor :=
  { ref := "r1", short_name := some "abc", display_name := some "A (June 1, 2024)",
    is_20hz := some true, build_time := some "t1", models := [modelSmall, modelBig],
    folder := "AFolder" }

def descNew : Descriptor :=
  { ref := "r2", short_name := some "New Model", display_name := some "N (May 3, 2024)",
    is_20hz := none, build_time := none, models := [modelSmall],
    folder := "NFolder" }

def manifestA : Manifest := { tinygrad_ref := none, bundles := [bundleA] }

def bundleRAV1 : Bundle := mkBundleX "RAV1" "RAV1" "rav1" (some 2) (some "11") (some "11") []

def bundleRAV2 : Bundle := mkBundleX "RAV2" "RAV2" "rav2" (some 5) (some "12") (some "12") []

def descRAV3 : Descriptor :=
  { ref := "rav3", short_name := some "RAV3", display_name := some "RAV3",
    is_20hz := none, build_time := none, models := [], folder := "RFolder" }

def bundleNoDate : Bundle := mkBundleX "ND" "no date here" "r3" (some 7) none none []

def manifestSort : Manifest :=
  { tinygrad_ref := none, bundles := [bundleA, bundleNoDate,
      mkBundleX "C" "C (January 5, 2023)" "r4" (some 3) none none []] }

def bundleAUpd : Bundle := updatePhase "recompiled3" descA bundleA

theorem toNat_ofNatAux (n : Nat) (h : n.isValidChar) :
    (Char.ofNatAux n h).toNat = n := by
  simp [Char.ofNatAux, Char.toNat, UInt32.toNat]

theorem upChar_toNat (c : Char) (h : 97 ≤ c.toNat ∧ c.toNat ≤ 122) :
    (upChar c).toNat = c.toNat - 32 := by
  unfold upChar
  rw [dif_pos h]
  exact toNat_ofNatAux _ _

theorem upChar_not_lower (c : Char) :
    ¬(97 ≤ (upChar c).toNat ∧ (upChar c).toNat ≤ 122) := by
  by_cases h : 97 ≤ c.toNat ∧ c.toNat ≤ 122
  · have := upChar_toNat c h
    omega
  · rw [upChar, dif_neg h]
    omega

theorem upChar_idem (c : Char) : upChar (upChar c) = upChar c := by
  have h := upChar_not_lower c
  conv_lhs => rw [upChar]
  exact dif_neg h

theorem pyUpper_idem (s : String) : pyUpper (pyUpper s) = pyUpper s := by
  unfold pyUpper
  simp only [List.map_map]
  apply congrArg String.mk
  apply List.map_congr_left
  intro a _
  exact upChar_idem a

/-! ## Lemmas about updateFirst / updateLast -/

theorem mem_updateFirst {α : Type} (p : α → Bool) (f : α → α) {l : List α} {b : α}
    (h : b ∈ updateFirst p f l) : b ∈ l ∨ ∃ a, a ∈ l ∧ p a = true ∧ b = f a := by
  induction l with
  | nil => simp [updateFirst] at h
  | cons a as ih =>
    by_cases hp : p a
    · simp only [updateFirst, if_pos hp, List.mem_cons] at h
      rcases h with h | h
      · right
        exact ⟨a, List.mem_cons_self a as, hp, h⟩
      · left
        exact List.mem_cons_of_mem a h
    · simp only [updateFirst, if_neg hp, List.mem_cons] at h
      rcases h with h | h
      · left
        exact h ▸ List.mem_cons_self a as
      · rcases ih h with h1 | ⟨x, hx, hpx, hb⟩
        · left
          exact List.mem_cons_of_mem a h1
        · right
          exact ⟨x, List.mem_cons_of_mem a hx, hpx, hb⟩

theorem updateFirst_fix {α : Type} (p : α → Bool) (f : α → α) {l : List α}
    (h : ∀ a ∈ l, p a = true → f a = a) : updateFirst p f l = l := by
  induction l with
  | nil => rfl
  | cons a as ih =>
    by_cases hp : p a
    · simp only [updateFirst, if_pos hp]
      rw [h a (List.mem_cons_self a as) hp]
    · simp only [updateFirst, if_neg hp]
      rw [ih (fun x hx hpx => h x (List.mem_cons_of_mem a hx) hpx)]

theorem map_updateFirst {α β : Type} (p : α → Bool) (f : α → α) (g : α → β)
    (hg : ∀ a, g (f a) = g a) (l : List α) :
    (updateFirst p f l).map g = l.map g := by
  induction l with
  | nil => rfl
  | cons a as ih =>
    by_cases hp : p a
    · simp only [updateFirst, if_pos hp, List.map_cons, hg]
    · simp only [updateFirst, if_neg hp, List.map_cons, ih]

theorem updateFirst_mem_p {α : Type} (p : α → Bool) (f : α → α) {l : List α}
    (hu : List.Pairwise (fun a b => ¬(p a = true ∧ p b = true)) l)
    {b : α} (hb : b ∈ updateFirst p f l) (hpb : p b = true) :
    ∃ a, a ∈ l ∧ p a = true ∧ b = f a := by
  induction l with
  | nil => simp [updateFirst] at hb
  | cons a as ih =>
    rcases List.pairwise_cons.mp hu with ⟨ha, hu2⟩
    by_cases hp : p a
    · simp only [updateFirst, if_pos hp, List.mem_cons] at hb
      rcases hb with hb | hb
      · exact ⟨a, List.mem_cons_self a as, hp, hb⟩
      · exact absurd ⟨hp, hpb⟩ (ha b hb)
    · simp only [updateFirst, if_neg hp, List.mem_cons] at hb
      rcases hb with hb | hb
      · exact absurd (hb ▸ hpb) hp
      · rcases ih hu2 hb with ⟨x, hx, h1, h2⟩
        exact ⟨x, List.mem_cons_of_mem a hx, h1, h2⟩

theorem mem_updateLast {α : Type} (p : α → Bool) (f : α → α) {l : List α} {b : α}
    (h : b ∈ updateLast p f l) : b ∈ l ∨ ∃ a, a ∈ l ∧ p a = true ∧ b = f a := by
  unfold updateLast at h
  rw [List.mem_reverse] at h
  rcases mem_updateFirst p f h with h1 | ⟨a, ha, h2, h3⟩
  · left
    exact List.mem_reverse.mp h1
  · right
    exact ⟨a, List.mem_reverse.mp ha, h2, h3⟩

theorem updateLast_fix {α : Type} (p : α → Bool) (f : α → α) {l : List α}
    (h : ∀ a ∈ l, p a = true → f a = a) : updateLast p f l = l := by
  unfold updateLast
  rw [updateFirst_fix p f (fun a ha hpa => h a (List.mem_reverse.mp ha) hpa)]
  exact List.reverse_reverse l

theorem map_updateLast {α β : Type} (p : α → Bool) (f : α → α) (g : α → β)
    (hg : ∀ a, g (f a) = g a) (l : List α) :
    (updateLast p f l).map g = l.map g := by
  unfold updateLast
  rw [List.map_reverse, map_updateFirst p f g hg, List.map_reverse, List.reverse_reverse]

theorem updateLast_mem_p {α : Type} (p : α → Bool) (f : α → α) {l : List α}
    (hu : List.Pairwise (fun a b => ¬(p a = true ∧ p b = true)) l)
    {b : α} (hb : b ∈ updateLast p f l) (hpb : p b = true) :
    ∃ a, a ∈ l ∧ p a = true ∧ b = f a := by
  unfold updateLast at hb
  rw [List.mem_reverse] at hb
  have hu2 : List.Pairwise (fun a b => ¬(p a = true ∧ p b = true)) l.reverse := by
    rw [List.pairwise_reverse]
    exact hu.imp (fun h hab => h ⟨hab.2, hab.1⟩)
  rcases updateFirst_mem_p p f hu2 hb hpb with ⟨x, hx, h1, h2⟩
  exact ⟨x, List.mem_reverse.mp hx, h1, h2⟩

theorem updateLast_append_single {α : Type} (p : α → Bool) (f : α → α)
    (l : List α) (y : α) (hy : p y = true) :
    updateLast p f (l ++ [y]) = l ++ [f y] := by
  unfold updateLast
  rw [List.reverse_append]
  simp only [List.reverse_cons, List.reverse_nil, List.nil_append, List.singleton_append,
    updateFirst, if_pos hy, List.reverse_cons, List.reverse_reverse]
  simp

/-! ## Field lemmas for the update phase -/

theorem applySlot_type (fm : List Model) (r f : String) (m : Model) :
    (applySlot fm r f m).type = m.type := by
  unfold applySlot
  cases fm.find? (fun x => x.type == m.type) <;> rfl

theorem applySlot_idem (fm : List Model) (r f : String) (m : Model) :
    applySlot fm r f (applySlot fm r f m) = applySlot fm r f m := by
  cases h : fm.find? (fun x => x.type == m.type) with
  | none =>
    have h1 : applySlot fm r f m = m := by
      unfold applySlot
      rw [h]
    rw [h1, h1]
  | some c =>
    have h1 : applySlot fm r f m = overwriteModel r f c m := by
      unfold applySlot
      rw [h]
    rw [h1]
    have h2 : (fun (x : Model) => x.type == (overwriteModel r f c m).type)
        = (fun (x : Model) => x.type == m.type) := rfl
    unfold applySlot
    rw [h2, h]
    rfl

theorem update_bundle_models_models (b : Bundle) (mm : List Model) (f r : String) :
    (update_bundle_models b mm f r).models = b.models.map (applySlot (filterBig mm) r f) := rfl

theorem update_bundle_models_idem (b : Bundle) (mm : List Model) (f r : String) :
    update_bundle_models (update_bundle_models b mm f r) mm f r
      = update_bundle_models b mm f r := by
  have hm : (b.models.map (applySlot (filterBig mm) r f)).map (applySlot (filterBig mm) r f)
      = b.models.map (applySlot (filterBig mm) r f) := by
    rw [List.map_map]
    apply List.map_congr_left
    intro a _
    exact applySlot_idem _ _ _ _
  exact congrArg (fun M => { b with models := M }) hm

theorem updatePhase_ref (rdn : String) (meta : Descriptor) (b : Bundle) :
    (updatePhase rdn meta b).ref = b.ref := rfl

theorem updatePhase_index (rdn : String) (meta : Descriptor) (b : Bundle) :
    (updatePhase rdn meta b).index = b.index := rfl

theorem updatePhase_msv (rdn : String) (meta : Descriptor) (b : Bundle) :
    (updatePhase rdn meta b).minimum_selector_version = b.minimum_selector_version := rfl

theorem updatePhase_short_name (rdn : String) (meta : Descriptor) (b : Bundle) :
    (updatePhase rdn meta b).short_name = pyUpper b.short_name := rfl

theorem updatePhase_setmsv (rdn : String) (meta : Descriptor) (b : Bundle) (v : Option String) :
    updatePhase rdn meta { b with minimum_selector_version := v }
      = { updatePhase rdn meta b with minimum_selector_version := v } := rfl

theorem updatePhase_idem (rdn : String) (meta : Descriptor) (b : Bundle) :
    updatePhase rdn meta (updatePhase rdn meta b) = updatePhase rdn meta b := by
  unfold updatePhase update_bundle_models
  cases hd : meta.display_name <;> cases hz : meta.is_20hz <;> cases hb : meta.build_time <;>
    simp [pyUpper_idem, List.map_map, Function.comp, applySlot_idem, List.map_congr_left]

/-! ## Ref bookkeeping for the descriptor loop -/

theorem refMatch_iff (r : String) (b : Bundle) : refMatch r b = true ↔ b.ref = r := by
  simp [refMatch]

theorem mkNewBundle_ref (args : Args) (meta : Descriptor) (bs : List Bundle) :
    (mkNewBundle args meta bs).ref = meta.ref := rfl

theorem any_map_ref (l : List Bundle) (p : String → Bool) :
    (l.map Bundle.ref).any p = l.any (fun b => p b.ref) := by
  induction l with
  | nil => rfl
  | cons a as ih => simp [ih]

theorem map_ref_updateLast (r rdn : String) (meta : Descriptor) (l : List Bundle) :
    (updateLast (refMatch r) (updatePhase rdn meta) l).map Bundle.ref = l.map Bundle.ref :=
  map_updateLast _ _ _ (fun a => updatePhase_ref rdn meta a) l

theorem processDescriptor_map_ref (args : Args) (rdn : String) (bs : List Bundle)
    (meta : Descriptor) :
    (processDescriptor args rdn bs meta).map Bundle.ref
      = if bs.any (refMatch meta.ref) = true then bs.map Bundle.ref
        else bs.map Bundle.ref ++ [meta.ref] := by
  unfold processDescriptor
  by_cases h : bs.any (refMatch meta.ref) = true
  · rw [if_pos h, if_pos h, map_ref_updateLast]
  · rw [if_neg h, if_neg h, map_ref_updateLast, List.map_append]
    rfl

theorem any_of_map_ref {bs bs2 : List Bundle} (r : String)
    (h : bs2.map Bundle.ref = bs.map Bundle.ref) (ha : bs.any (refMatch r) = true) :
    bs2.any (refMatch r) = true := by
  have h1 : (bs.map Bundle.ref).any (fun x => x == r) = true := by
    rw [any_map_ref]
    exact ha
  rw [← h, any_map_ref] at h1
  exact h1

theorem processDescriptor_nodup (args : Args) (rdn : String) (bs : List Bundle)
    (meta : Descriptor) (h : (bs.map Bundle.ref).Nodup) :
    ((processDescriptor args rdn bs meta).map Bundle.ref).Nodup := by
  rw [processDescriptor_map_ref]
  by_cases hany : bs.any (refMatch meta.ref) = true
  · rw [if_pos hany]
    exact h
  · rw [if_neg hany]
    have hnm : meta.ref ∉ bs.map Bundle.ref := by
      intro hmem
      rcases List.mem_map.mp hmem with ⟨b, hb, hrb⟩
      exact hany (List.any_eq_true.mpr ⟨b, hb, (refMatch_iff meta.ref b).mpr hrb⟩)
    simp [List.nodup_append, h, hnm]

theorem nodup_pairwise_refs {bs : List Bundle} (h : (bs.map Bundle.ref).Nodup) (r : String) :
    List.Pairwise (fun a b => ¬(refMatch r a = true ∧ refMatch r b = true)) bs := by
  have h2 : bs.Pairwise (fun a b => Bundle.ref a ≠ Bundle.ref b) := List.pairwise_map.mp h
  exact h2.imp (fun hne hc =>
    hne (((refMatch_iff r _).mp hc.1).trans ((refMatch_iff r _).mp hc.2).symm))

theorem settled_after_process (args : Args) (rdn : String) (bs : List Bundle)
    (meta : Descriptor) (hnd : (bs.map Bundle.ref).Nodup) :
    SettledAt rdn meta (processDescriptor args rdn bs meta) := by
  have hbs1 : ∀ bs1 : List Bundle, (bs1.map Bundle.ref).Nodup →
      bs1.any (refMatch meta.ref) = true →
      SettledAt rdn meta (updateLast (refMatch meta.ref) (updatePhase rdn meta) bs1) := by
    intro bs1 hnd1 hany1
    constructor
    · exact any_of_map_ref meta.ref (map_ref_updateLast meta.ref rdn meta bs1) hany1
    · intro b hb hrb
      rcases updateLast_mem_p (refMatch meta.ref) (updatePhase rdn meta)
          (nodup_pairwise_refs hnd1 meta.ref) hb ((refMatch_iff meta.ref b).mpr hrb)
        with ⟨x, _, _, hbx⟩
      rw [hbx]
      exact updatePhase_idem rdn meta x
  unfold processDescriptor
  by_cases hany : bs.any (refMatch meta.ref) = true
  · rw [if_pos hany]
    exact hbs1 bs hnd hany
  · rw [if_neg hany]
    have hnm : meta.ref ∉ bs.map Bundle.ref := by
      intro hmem
      rcases List.mem_map.mp hmem with ⟨b, hb, hrb⟩
      exact hany (List.any_eq_true.mpr ⟨b, hb, (refMatch_iff meta.ref b).mpr hrb⟩)
    apply hbs1
    · rw [List.map_append]
      simp only [List.map_cons, List.map_nil, mkNewBundle_ref]
      simp [List.nodup_append, hnd, hnm]
    · refine List.any_eq_true.mpr ⟨mkNewBundle args meta bs, by simp, ?_⟩
      simp [refMatch, mkNewBundle_ref]

theorem settled_preserved_step (args : Args) (rdn : String) (meta meta2 : Descriptor)
    (bs : List Bundle) (hs : SettledAt rdn meta bs) (hne : meta2.ref ≠ meta.ref) :
    SettledAt rdn meta (processDescriptor args rdn bs meta2) := by
  have hmem : ∀ b ∈ processDescriptor args rdn bs meta2, b.ref = meta.ref →
      updatePhase rdn meta b = b := by
    intro b hb hrb
    unfold processDescriptor at hb
    rcases mem_updateLast _ _ hb with h1 | ⟨x, hx, hpx, hbx⟩
    · by_cases hany : bs.any (refMatch meta2.ref) = true
      · rw [if_pos hany] at h1
        exact hs.2 b h1 hrb
      · rw [if_neg hany] at h1
        rcases List.mem_append.mp h1 with h2 | h2
        · exact hs.2 b h2 hrb
        · exfalso
          have : b = mkNewBundle args meta2 bs := by simpa using h2
          rw [this, mkNewBundle_ref] at hrb
          exact hne hrb
    · exfalso
      have hx2 : x.ref = meta2.ref := (refMatch_iff meta2.ref x).mp hpx
      rw [hbx, updatePhase_ref, hx2] at hrb
      exact hne hrb
  refine ⟨?_, hmem⟩
  have hrefs := processDescriptor_map_ref args rdn bs meta2
  by_cases hany : bs.any (refMatch meta2.ref) = true
  · rw [if_pos hany] at hrefs
    exact any_of_map_ref meta.ref hrefs hs.1
  · rw [if_neg hany] at hrefs
    have h1 : (bs.map Bundle.ref).any (fun x => x == meta.ref) = true := by
      rw [any_map_ref]
      exact hs.1
    have h2 : ((processDescriptor args rdn bs meta2).map Bundle.ref).any
        (fun x => x == meta.ref) = true := by
      rw [hrefs, List.any_append, h1]
      rfl
    rw [any_map_ref] at h2
    exact h2

theorem settled_preserved_fold (args : Args) (rdn : String) (meta : Descriptor)
    (ds : List Descriptor) (bs : List Bundle) (hs : SettledAt rdn meta bs)
    (hne : ∀ d ∈ ds, d.ref ≠ meta.ref) :
    SettledAt rdn meta (ds.foldl (processDescriptor args rdn) bs) := by
  induction ds generalizing bs with
  | nil => exact hs
  | cons d ds ih =>
    rw [List.foldl_cons]
    exact ih (processDescriptor args rdn bs d)
      (settled_preserved_step args rdn meta d bs hs (hne d (List.mem_cons_self d ds)))
      (fun x hx => hne x (List.mem_cons_of_mem d hx))

theorem foldl_settles (args : Args) (rdn : String) (ds : List Descriptor)
    (bs : List Bundle) (hbs : (bs.map Bundle.ref).Nodup)
    (hds : (ds.map Descriptor.ref).Nodup) :
    ((ds.foldl (processDescriptor args rdn) bs).map Bundle.ref).Nodup ∧
      ∀ d ∈ ds, SettledAt rdn d (ds.foldl (processDescriptor args rdn) bs) := by
  induction ds generalizing bs with
  | nil => exact ⟨hbs, by simp⟩
  | cons d ds ih =>
    rw [List.map_cons, List.nodup_cons] at hds
    have hnd1 := processDescriptor_nodup args rdn bs d hbs
    rcases ih (processDescriptor args rdn bs d) hnd1 hds.2 with ⟨hA, hB⟩
    rw [List.foldl_cons]
    refine ⟨hA, ?_⟩
    intro e he
    rcases List.mem_cons.mp he with he1 | he2
    · subst he1
      apply settled_preserved_fold args rdn e ds _ (settled_after_process args rdn bs e hbs)
      intro x hx hxe
      exact hds.1 (hxe ▸ List.mem_map_of_mem Descriptor.ref hx)
    · exact hB e he2

theorem process_fix (args : Args) (rdn : String) (meta : Descriptor) (bs : List Bundle)
    (hs : SettledAt rdn meta bs) : processDescriptor args rdn bs meta = bs := by
  unfold processDescriptor
  rw [if_pos hs.1]
  exact updateLast_fix _ _ (fun a ha hpa => hs.2 a ha ((refMatch_iff meta.ref a).mp hpa))

theorem foldl_fix (args : Args) (rdn : String) (ds : List Descriptor) (bs : List Bundle)
    (hs : ∀ d ∈ ds, SettledAt rdn d bs) :
    ds.foldl (processDescriptor args rdn) bs = bs := by
  induction ds with
  | nil => rfl
  | cons d ds ih =>
    rw [List.foldl_cons, process_fix args rdn d bs (hs d (List.mem_cons_self d ds))]
    exact ih (fun x hx => hs x (List.mem_cons_of_mem d hx))

theorem any_refMatch_setmsv (r v : String) (bs : List Bundle) :
    (bs.map (fun b => { b with minimum_selector_version := some v })).any (refMatch r)
      = bs.any (refMatch r) := by
  induction bs with
  | nil => rfl
  | cons a as ih =>
    simp only [List.map_cons, List.any_cons, ih]
    rfl

theorem setMinVersion_none (args : Args) (bs : List Bundle)
    (h : args.set_min_version = none) : setMinVersion args bs = bs := by
  unfold setMinVersion
  rw [h]

theorem setMinVersion_some (args : Args) (v : String) (bs : List Bundle)
    (h : args.set_min_version = some v) :
    setMinVersion args bs = bs.map (fun b => { b with minimum_selector_version := some v }) := by
  unfold setMinVersion
  rw [h]

theorem settled_setmin (args : Args) (rdn : String) (meta : Descriptor) (bs : List Bundle)
    (hs : SettledAt rdn meta bs) : SettledAt rdn meta (setMinVersion args bs) := by
  cases hv : args.set_min_version with
  | none =>
    rw [setMinVersion_none args bs hv]
    exact hs
  | some v =>
    rw [setMinVersion_some args v bs hv]
    constructor
    · rw [any_refMatch_setmsv]
      exact hs.1
    · intro b hb hrb
      rcases List.mem_map.mp hb with ⟨x, hx, hbx⟩
      have hxr : x.ref = meta.ref := by
        rw [← hrb, ← hbx]
      rw [← hbx, updatePhase_setmsv, hs.2 x hx hxr]

theorem setMinVersion_idem (args : Args) (bs : List Bundle) :
    setMinVersion args (setMinVersion args bs) = setMinVersion args bs := by
  cases hv : args.set_min_version with
  | none => rw [setMinVersion_none args _ hv, setMinVersion_none args _ hv]
  | some v =>
    rw [setMinVersion_some args v _ hv, setMinVersion_some args v _ hv, List.map_map]
    apply List.map_congr_left
    intro a _
    rfl

theorem mergePhase_def (args : Args) (rdn : String) (m : Manifest) (D : List Descriptor) :
    mergePhase args rdn m D =
      { tinygrad_ref := match args.tinygrad_ref with
          | some r => some r
          | none => m.tinygrad_ref,
        bundles := setMinVersion args (D.foldl (processDescriptor args rdn) m.bundles) } := by
  unfold mergePhase
  cases args.tinygrad_ref <;> rfl

/-- C4 helper: a no-sort run is just the merge phase. -/
theorem runMerge_no_sort (args : Args) (rdn : String) (m : Manifest)
    (D : List Descriptor) (hsort : args.sort_by_date = false) :
    runMerge args rdn m D = mergePhase args rdn m D := by
  unfold runMerge
  rw [hsort]
  rfl

/-- C4: without `--sort-by-date`, running the merge twice with the same
descriptor set gives the same manifest as running it once. -/
theorem merge_idempotent (args : Args) (rdn : String) (M : Manifest) (D : List Descriptor)
    (hsort : args.sort_by_date = false)
    (hM : (M.bundles.map Bundle.ref).Nodup)
    (hD : (D.map Descriptor.ref).Nodup) :
    runMerge args rdn (runMerge args rdn M D) D = runMerge args rdn M D := by
  rw [runMerge_no_sort args rdn M D hsort,
    runMerge_no_sort args rdn (mergePhase args rdn M D) D hsort]
  rcases foldl_settles args rdn D M.bundles hM hD with ⟨hnd, hset⟩
  have hsetB : ∀ d ∈ D, SettledAt rdn d
      (setMinVersion args (D.foldl (processDescriptor args rdn) M.bundles)) :=
    fun d hd => settled_setmin args rdn d _ (hset d hd)
  rw [mergePhase_def args rdn M D, mergePhase_def args rdn _ D]
  have hfold2 : D.foldl (processDescriptor args rdn)
      (setMinVersion args (D.foldl (processDescriptor args rdn) M.bundles))
      = setMinVersion args (D.foldl (processDescriptor args rdn) M.bundles) :=
    foldl_fix args rdn D _ hsetB
  simp only [hfold2, setMinVersion_idem]
  cases args.tinygrad_ref <;> rfl

/-! ## Lemmas about the stable sort and reindexing -/

theorem mem_insB {key : Bundle → Nat} {b b2 : Bundle} {l : List Bundle}
    (h : b2 ∈ insB key b l) : b2 = b ∨ b2 ∈ l := by
  induction l with
  | nil =>
    simp [insB] at h
    exact Or.inl h
  | cons c cs ih =>
    by_cases hk : key b ≤ key c
    · simp only [insB, if_pos hk, List.mem_cons] at h
      rcases h with h | h | h
      · exact Or.inl h
      · exact Or.inr (h ▸ List.mem_cons_self c cs)
      · exact Or.inr (List.mem_cons_of_mem c h)
    · simp only [insB, if_neg hk, List.mem_cons] at h
      rcases h with h | h
      · exact Or.inr (h ▸ List.mem_cons_self c cs)
      · rcases ih h with h1 | h1
        · exact Or.inl h1
        · exact Or.inr (List.mem_cons_of_mem c h1)

theorem insB_perm (key : Bundle → Nat) (b : Bundle) (l : List Bundle) :
    (insB key b l).Perm (b :: l) := by
  induction l with
  | nil => exact List.Perm.refl _
  | cons c cs ih =>
    by_cases hk : key b ≤ key c
    · rw [insB, if_pos hk]
    · rw [insB, if_neg hk]
      exact (List.Perm.cons c ih).trans (List.Perm.swap b c cs)

theorem pySortKey_perm (key : Bundle → Nat) (l : List Bundle) :
    (pySortKey key l).Perm l := by
  induction l with
  | nil => exact List.Perm.refl _
  | cons b bs ih =>
    exact (insB_perm key b (pySortKey key bs)).trans (List.Perm.cons b ih)

theorem insB_sorted (key : Bundle → Nat) (b : Bundle) (l : List Bundle)
    (h : List.Pairwise (fun x y => key x ≤ key y) l) :
    List.Pairwise (fun x y => key x ≤ key y) (insB key b l) := by
  induction l with
  | nil => simp [insB]
  | cons c cs ih =>
    rcases List.pairwise_cons.mp h with ⟨hc, hcs⟩
    by_cases hk : key b ≤ key c
    · rw [insB, if_pos hk]
      refine List.pairwise_cons.mpr ⟨?_, h⟩
      intro x hx
      rcases List.mem_cons.mp hx with hx | hx
      · exact hx ▸ hk
      · exact le_trans hk (hc x hx)
    · rw [insB, if_neg hk]
      refine List.pairwise_cons.mpr ⟨?_, ih hcs⟩
      intro x hx
      rcases mem_insB hx with hx | hx
      · exact hx ▸ le_of_lt (lt_of_not_le hk)
      · exact hc x hx

theorem pySortKey_sorted (key : Bundle → Nat) (l : List Bundle) :
    List.Pairwise (fun x y => key x ≤ key y) (pySortKey key l) := by
  induction l with
  | nil => simp [pySortKey]
  | cons b bs ih => exact insB_sorted key b (pySortKey key bs) ih

theorem filter_insB (key : Bundle → Nat) (k : Nat) (b : Bundle) (l : List Bundle) :
    (insB key b l).filter (fun x => key x == k)
      = if key b = k then b :: l.filter (fun x => key x == k)
        else l.filter (fun x => key x == k) := by
  induction l with
  | nil =>
    by_cases hb : key b = k
    · simp [insB, hb]
    · simp [insB, hb]
  | cons c cs ih =>
    by_cases hk : key b ≤ key c
    · rw [insB, if_pos hk]
      by_cases hb : key b = k
      · simp [List.filter_cons, hb]
      · simp [List.filter_cons, hb]
    · rw [insB, if_neg hk]
      have hck : key c < key b := lt_of_not_le hk
      by_cases hb : key b = k
      · have hcne : ¬(key c = k) := by omega
        simp [List.filter_cons, hcne, ih, hb]
      · by_cases hcc : key c = k
        · simp [List.filter_cons, hcc, ih, hb]
        · simp [List.filter_cons, hcc, ih, hb]

theorem pySortKey_filter (key : Bundle → Nat) (k : Nat) (l : List Bundle) :
    (pySortKey key l).filter (fun x => key x == k) = l.filter (fun x => key x == k) := by
  induction l with
  | nil => rfl
  | cons b bs ih =>
    rw [pySortKey, filter_insB]
    by_cases hb : key b = k
    · simp [List.filter_cons, hb, ih]
    · simp [List.filter_cons, hb, ih]

theorem reindexFrom_map_clear (i : Nat) (l : List Bundle) :
    (reindexFrom i l).map clearIdx = l.map clearIdx := by
  induction l generalizing i with
  | nil => rfl
  | cons b bs ih => simp [reindexFrom, clearIdx, ih]

theorem mem_reindexFrom {b : Bundle} {i : Nat} {l : List Bundle}
    (h : b ∈ reindexFrom i l) :
    ∃ x ∈ l, ∃ j : Nat, b = { x with index := some (Int.ofNat j) } := by
  induction l generalizing i with
  | nil => simp [reindexFrom] at h
  | cons c cs ih =>
    rcases List.mem_cons.mp h with h1 | h1
    · exact ⟨c, List.mem_cons_self c cs, i, h1⟩
    · rcases ih h1 with ⟨x, hx, j, hb⟩
      exact ⟨x, List.mem_cons_of_mem c hx, j, hb⟩

theorem reindexFrom_map_index (i : Nat) (l : List Bundle) :
    (reindexFrom i l).map Bundle.index
      = (List.range' i l.length).map (fun n => some (Int.ofNat n)) := by
  induction l generalizing i with
  | nil => rfl
  | cons b bs ih => simp [reindexFrom, List.range'_succ, ih]

/-! ## Bounds on the parsed date key -/

theorem stripMonth_bound {table : List (List Char × Nat)} {l : List Char}
    {m : Nat} {r : List Char} (h : stripMonth table l = some (m, r))
    (hb : ∀ p ∈ table, 1 ≤ p.2) : 1 ≤ m := by
  induction table with
  | nil => simp [stripMonth] at h
  | cons q rest ih =>
    obtain ⟨nm, mm⟩ := q
    by_cases hp : nm.isPrefixOf l
    · simp only [stripMonth, if_pos hp, Option.some.injEq, Prod.mk.injEq] at h
      have h2 := hb (nm, mm) (List.mem_cons_self _ _)
      exact h.1 ▸ h2
    · simp only [stripMonth, if_neg hp] at h
      exact ih h (fun p hp2 => hb p (List.mem_cons_of_mem _ hp2))

theorem strptime_pos {s : String} {y m d : Nat}
    (h : strptimeBdY s = some (y, m, d)) : 1 ≤ y ∧ 1 ≤ m ∧ 1 ≤ d := by
  simp only [strptimeBdY] at h
  split at h
  case _ => exact absurd h (by simp)
  case _ mo r1 heq =>
    have hmo : 1 ≤ mo := stripMonth_bound heq (by decide)
    split_ifs at h with hws hday
    · split at h
      case _ c r4 heq2 =>
        split_ifs at h with hc hws2 hyear
        · simp only [Option.some.injEq, Prod.mk.injEq] at h
          obtain ⟨hy, hm2, hd⟩ := h
          have h1 : 1 ≤ digitsVal (List.takeWhile Char.isDigit
              (List.drop (List.takeWhile Char.isWhitespace r1).length r1)) := by
            rcases hday with ⟨_, h2, _⟩ | ⟨_, h2, _⟩ <;> exact h2
          obtain ⟨_, _, h3, _⟩ := hyear
          omega
      case _ heq2 => exact absurd h (by simp)

theorem dateKey_lb (s : String) : 10101 ≤ dateKeyOf (parse_date s) := by
  unfold parse_date
  cases h : strptimeBdY s with
  | none => simp [dateKeyOf]
  | some t =>
    obtain ⟨y, m, d⟩ := t
    have := strptime_pos h
    simp only [Option.getD_some, dateKeyOf]
    omega

theorem dateKey_unparseable (s : String) (h : strptimeBdY s = none) :
    dateKeyOf (parse_date s) = 10101 := by
  simp [parse_date, h, dateKeyOf]

/-! ## Membership analysis of one descriptor step -/

theorem mem_processDescriptor {args : Args} {rdn : String} {bs : List Bundle}
    {meta : Descriptor} {b : Bundle} (h : b ∈ processDescriptor args rdn bs meta) :
    b ∈ bs ∨ b = mkNewBundle args meta bs ∨
      ∃ x, (x ∈ bs ∨ x = mkNewBundle args meta bs) ∧ b = updatePhase rdn meta x := by
  unfold processDescriptor at h
  by_cases hany : bs.any (refMatch meta.ref) = true
  · rw [if_pos hany] at h
    rcases mem_updateLast _ _ h with h1 | ⟨x, hx, _, hbx⟩
    · exact Or.inl h1
    · exact Or.inr (Or.inr ⟨x, Or.inl hx, hbx⟩)
  · rw [if_neg hany] at h
    rcases mem_updateLast _ _ h with h1 | ⟨x, hx, _, hbx⟩
    · rcases List.mem_append.mp h1 with h2 | h2
      · exact Or.inl h2
      · exact Or.inr (Or.inl (by simpa using h2))
    · rcases List.mem_append.mp hx with h2 | h2
      · exact Or.inr (Or.inr ⟨x, Or.inl h2, hbx⟩)
      · exact Or.inr (Or.inr ⟨x, Or.inr (by simpa using h2), hbx⟩)

theorem updatePhase_models (rdn : String) (meta : Descriptor) (b : Bundle) :
    (updatePhase rdn meta b).models
      = b.models.map (applySlot (filterBig meta.models) rdn meta.folder) := rfl

theorem mkNewBundle_models (args : Args) (meta : Descriptor) (bs : List Bundle) :
    (mkNewBundle args meta bs).models = filterBig meta.models := rfl

theorem filterBig_no_big {ms : List Model} {c : Model} (hc : c ∈ filterBig ms) :
    containsBig c = false := by
  have := List.mem_filter.mp hc
  simpa using this.2

theorem applySlot_big (fm : List Model) (rdn folder : String) (m0 : Model)
    (hfm : ∀ c ∈ fm, containsBig c = false) :
    containsBig (applySlot fm rdn folder m0) = false ∨ applySlot fm rdn folder m0 = m0 := by
  unfold applySlot
  cases h : fm.find? (fun x => x.type == m0.type) with
  | none => exact Or.inr rfl
  | some c =>
    left
    have hc := hfm c (List.mem_of_find?_eq_some h)
    calc containsBig (overwriteModel rdn folder c m0) = containsBig c := rfl
    _ = false := hc

theorem bigOK_updatePhase {M : Manifest} {rdn : String} {meta : Descriptor} {x : Bundle}
    (hx : ∀ m ∈ x.models, containsBig m = true →
      ∃ b0 ∈ M.bundles, b0.ref = x.ref ∧ m ∈ b0.models)
    (m : Model) (hm : m ∈ (updatePhase rdn meta x).models) (hbig : containsBig m = true) :
    ∃ b0 ∈ M.bundles, b0.ref = x.ref ∧ m ∈ b0.models := by
  rw [updatePhase_models] at hm
  rcases List.mem_map.mp hm with ⟨m0, hm0, hmm⟩
  rcases applySlot_big (filterBig meta.models) rdn meta.folder m0 (fun c hc => filterBig_no_big hc) with hb | hb
  · rw [hmm] at hb
    rw [hbig] at hb
    exact absurd hb (by simp)
  · rw [← hmm, hb]
    exact hx m0 hm0 (by rw [← hb, hmm, hbig])

theorem bigOK_process {M : Manifest} {args : Args} {rdn : String} {meta : Descriptor}
    {bs : List Bundle} (h : BigOK M bs) :
    BigOK M (processDescriptor args rdn bs meta) := by
  intro b hb m hm hbig
  rcases mem_processDescriptor hb with h1 | h1 | ⟨x, hx, hbx⟩
  · exact h b h1 m hm hbig
  · rw [h1, mkNewBundle_models] at hm
    rw [filterBig_no_big hm] at hbig
    exact absurd hbig (by simp)
  · have hxprop : ∀ m2 ∈ x.models, containsBig m2 = true →
        ∃ b0 ∈ M.bundles, b0.ref = x.ref ∧ m2 ∈ b0.models := by
      rcases hx with hx1 | hx1
      · exact fun m2 hm2 hb2 => h x hx1 m2 hm2 hb2
      · intro m2 hm2 hb2
        rw [hx1, mkNewBundle_models] at hm2
        rw [filterBig_no_big hm2] at hb2
        exact absurd hb2 (by simp)
    have href : b.ref = x.ref := by rw [hbx, updatePhase_ref]
    rw [hbx] at hm
    rw [href]
    exact bigOK_updatePhase hxprop m hm hbig

theorem bigOK_fold {M : Manifest} {args : Args} {rdn : String} (ds : List Descriptor)
    (bs : List Bundle) (h : BigOK M bs) :
    BigOK M (ds.foldl (processDescriptor args rdn) bs) := by
  induction ds generalizing bs with
  | nil => exact h
  | cons d ds ih =>
    rw [List.foldl_cons]
    exact ih _ (bigOK_process h)

theorem bigOK_setmin {M : Manifest} {args : Args} {bs : List Bundle} (h : BigOK M bs) :
    BigOK M (setMinVersion args bs) := by
  cases hv : args.set_min_version with
  | none => rw [setMinVersion_none args bs hv]; exact h
  | some v =>
    rw [setMinVersion_some args v bs hv]
    intro b hb m hm hbig
    rcases List.mem_map.mp hb with ⟨x, hx, hbx⟩
    have h1 := h x hx m (by rw [← hbx] at hm; exact hm) hbig
    rw [← hbx]
    exact h1

theorem bigOK_sortStep {M : Manifest} {bs : List Bundle} (h : BigOK M bs) :
    BigOK M (sortStep bs) := by
  intro b hb m hm hbig
  rcases mem_reindexFrom hb with ⟨x, hx, j, hbx⟩
  have hx2 : x ∈ bs := ((pySortKey_perm bundleDateKey bs).mem_iff).mp hx
  have h1 := h x hx2 m (by rw [hbx] at hm; exact hm) hbig
  rw [hbx]
  exact h1

theorem upAt_establish (args : Args) (rdn : String) (bs : List Bundle)
    (meta : Descriptor) (hnd : (bs.map Bundle.ref).Nodup) :
    UpAt meta.ref (processDescriptor args rdn bs meta) := by
  intro b hb hrb
  unfold processDescriptor at hb
  have key : ∀ bs1 : List Bundle,
      b ∈ updateLast (refMatch meta.ref) (updatePhase rdn meta) bs1 →
      List.Pairwise (fun a c => ¬(refMatch meta.ref a = true ∧ refMatch meta.ref c = true)) bs1 →
      b.short_name = pyUpper b.short_name := by
    intro bs1 hmem hpw
    rcases updateLast_mem_p (refMatch meta.ref) (updatePhase rdn meta) hpw hmem
        ((refMatch_iff meta.ref b).mpr hrb) with ⟨x, _, _, hbx⟩
    rw [hbx, updatePhase_short_name, pyUpper_idem]
  by_cases hany : bs.any (refMatch meta.ref) = true
  · rw [if_pos hany] at hb
    exact key bs hb (nodup_pairwise_refs hnd meta.ref)
  · rw [if_neg hany] at hb
    refine key _ hb ?_
    have hnm : meta.ref ∉ bs.map Bundle.ref := by
      intro hmem
      rcases List.mem_map.mp hmem with ⟨c, hc, hrc⟩
      exact hany (List.any_eq_true.mpr ⟨c, hc, (refMatch_iff meta.ref c).mpr hrc⟩)
    have hnd2 : ((bs ++ [mkNewBundle args meta bs]).map Bundle.ref).Nodup := by
      rw [List.map_append]
      simp only [List.map_cons, List.map_nil, mkNewBundle_ref]
      simp [List.nodup_append, hnd, hnm]
    exact nodup_pairwise_refs hnd2 meta.ref

theorem upAt_step (args : Args) (rdn : String) (r : String) (bs : List Bundle)
    (meta : Descriptor) (h : UpAt r bs) :
    UpAt r (processDescriptor args rdn bs meta) := by
  intro b hb hrb
  rcases mem_processDescriptor hb with h1 | h1 | ⟨x, _, hbx⟩
  · exact h b h1 hrb
  · rw [h1]
    show descShortName meta = pyUpper (descShortName meta)
    rw [descShortName, pyUpper_idem]
  · rw [hbx, updatePhase_short_name, pyUpper_idem]

theorem upAt_fold (args : Args) (rdn : String) (r : String) (ds : List Descriptor)
    (bs : List Bundle) (h : UpAt r bs) :
    UpAt r (ds.foldl (processDescriptor args rdn) bs) := by
  induction ds generalizing bs with
  | nil => exact h
  | cons d ds ih =>
    rw [List.foldl_cons]
    exact ih _ (upAt_step args rdn r bs d h)

theorem upper_fold (args : Args) (rdn : String) (ds : List Descriptor) (bs : List Bundle)
    (hnd : (bs.map Bundle.ref).Nodup) :
    ∀ b ∈ ds.foldl (processDescriptor args rdn) bs,
      (∃ d ∈ ds, d.ref = b.ref) → b.short_name = pyUpper b.short_name := by
  induction ds generalizing bs with
  | nil => simp
  | cons d ds ih =>
    intro b hb ⟨e, he, her⟩
    rw [List.foldl_cons] at hb
    rcases List.mem_cons.mp he with he1 | he2
    · subst he1
      exact upAt_fold args rdn e.ref ds _ (upAt_establish args rdn bs e hnd) b hb her.symm
    · exact ih (processDescriptor args rdn bs d) (processDescriptor_nodup args rdn bs d hnd)
        b hb ⟨e, he2, her⟩

theorem setmin_short_name (args : Args) (bs : List Bundle) :
    (setMinVersion args bs).map (fun b => (b.short_name, b.ref))
      = bs.map (fun b => (b.short_name, b.ref)) := by
  cases hv : args.set_min_version with
  | none => rw [setMinVersion_none args bs hv]
  | some v =>
    rw [setMinVersion_some args v bs hv, List.map_map]
    apply List.map_congr_left
    intro a _
    rfl

/-! ## Index frame (for C8) -/

theorem processDescriptor_idx (args : Args) (rdn : String) (bs : List Bundle)
    (meta : Descriptor) :
    ∃ t, (processDescriptor args rdn bs meta).map Bundle.index
      = bs.map Bundle.index ++ t := by
  unfold processDescriptor
  by_cases hany : bs.any (refMatch meta.ref) = true
  · rw [if_pos hany]
    refine ⟨[], ?_⟩
    rw [map_updateLast _ _ _ (fun a => updatePhase_index rdn meta a), List.append_nil]
  · rw [if_neg hany]
    refine ⟨[(mkNewBundle args meta bs).index], ?_⟩
    rw [map_updateLast _ _ _ (fun a => updatePhase_index rdn meta a), List.map_append]
    rfl

theorem foldl_idx (args : Args) (rdn : String) (ds : List Descriptor) (bs : List Bundle) :
    ∃ t, (ds.foldl (processDescriptor args rdn) bs).map Bundle.index
      = bs.map Bundle.index ++ t := by
  induction ds generalizing bs with
  | nil => exact ⟨[], (List.append_nil _).symm⟩
  | cons d ds ih =>
    rw [List.foldl_cons]
    rcases ih (processDescriptor args rdn bs d) with ⟨t1, ht1⟩
    rcases processDescriptor_idx args rdn bs d with ⟨t0, ht0⟩
    exact ⟨t0 ++ t1, by rw [ht1, ht0, List.append_assoc]⟩

theorem setmin_idx (args : Args) (bs : List Bundle) :
    (setMinVersion args bs).map Bundle.index = bs.map Bundle.index := by
  cases hv : args.set_min_version with
  | none => rw [setMinVersion_none args bs hv]
  | some v =>
    rw [setMinVersion_some args v bs hv, List.map_map]
    apply List.map_congr_left
    intro a _
    rfl

/-! ## Characterization of the max-by-index choice (for C6) -/

theorem foldl_max_spec (key : Bundle → Int) (bs : List Bundle) (b : Bundle) :
    (bs.foldl (fun acc x => if key x > key acc then x else acc) b = b ∨
        bs.foldl (fun acc x => if key x > key acc then x else acc) b ∈ bs) ∧
      key b ≤ key (bs.foldl (fun acc x => if key x > key acc then x else acc) b) ∧
      ∀ x ∈ bs, key x ≤ key (bs.foldl (fun acc x => if key x > key acc then x else acc) b) := by
  induction bs generalizing b with
  | nil => exact ⟨Or.inl rfl, le_refl _, by simp⟩
  | cons c cs ih =>
    simp only [List.foldl_cons]
    by_cases hc : key c > key b
    · rw [if_pos hc]
      rcases ih c with ⟨hmem, hle, hall⟩
      refine ⟨?_, ?_, ?_⟩
      · rcases hmem with h1 | h1
        · rw [h1]
          exact Or.inr (List.mem_cons_self c cs)
        · exact Or.inr (List.mem_cons_of_mem c h1)
      · exact le_trans (le_of_lt hc) hle
      · intro x hx
        rcases List.mem_cons.mp hx with hx1 | hx1
        · subst hx1
          exact hle
        · exact hall x hx1
    · rw [if_neg hc]
      rcases ih b with ⟨hmem, hle, hall⟩
      refine ⟨?_, ?_, ?_⟩
      · rcases hmem with h1 | h1
        · exact Or.inl h1
        · exact Or.inr (List.mem_cons_of_mem c h1)
      · exact hle
      · intro x hx
        rcases List.mem_cons.mp hx with hx1 | hx1
        · subst hx1
          exact le_trans (le_of_not_lt hc) hle
        · exact hall x hx1

theorem pyMaxBy_spec (key : Bundle → Int) (l : List Bundle) :
    (l = [] ∧ pyMaxBy key l = none) ∨
      ∃ c, pyMaxBy key l = some c ∧ c ∈ l ∧ ∀ x ∈ l, key x ≤ key c := by
  cases l with
  | nil => exact Or.inl ⟨rfl, rfl⟩
  | cons b bs =>
    right
    rcases foldl_max_spec key bs b with ⟨hmem, hle, hall⟩
    refine ⟨bs.foldl (fun acc x => if key x > key acc then x else acc) b, rfl, ?_, ?_⟩
    · rcases hmem with h1 | h1
      · rw [h1]
        exact List.mem_cons_self b bs
      · exact List.mem_cons_of_mem b h1
    · intro x hx
      rcases List.mem_cons.mp hx with hx1 | hx1
      · exact hx1 ▸ hle
      · exact hall x hx1

/-! ## Characterization of the regex search behind extract_date (for C3) -/

theorem takeWhile_all_stop {p : Char → Bool} {t : List Char} {c : Char} {suf : List Char}
    (ht : ∀ x ∈ t, p x = true) (hc : p c = false) :
    (t ++ c :: suf).takeWhile p = t := by
  induction t with
  | nil => simp [List.takeWhile_cons, hc]
  | cons a ts ih =>
    have ha := ht a (List.mem_cons_self a ts)
    simp [List.takeWhile_cons, ha, ih (fun x hx => ht x (List.mem_cons_of_mem _ hx))]

theorem dropWhile_head_false {p : Char → Bool} {l : List Char} {d : Char} {suf : List Char}
    (h : l.dropWhile p = d :: suf) : p d = false := by
  induction l with
  | nil => simp [List.dropWhile] at h
  | cons a as ih =>
    by_cases pa : p a = true
    · rw [List.dropWhile_cons, if_pos pa] at h
      exact ih h
    · rw [List.dropWhile_cons, if_neg pa] at h
      rw [← List.cons.injEq _ _ _ _ |>.mp h |>.1]
      exact Bool.not_eq_true _ ▸ (by simpa using pa)

/-- Under the failure condition of one scan position (empty run or missing
close paren), no valid parenthesized group starts right here. -/
theorem noValidHead {rest : List Char}
    (hB : ¬((rest.takeWhile (fun x => x != ')')).isEmpty = false
        ∧ (rest.takeWhile (fun x => x != ')')).length < rest.length)) :
    ∀ t suf, rest = t ++ ')' :: suf → t = [] ∨ ')' ∈ t := by
  intro t suf hdec
  by_contra hcon
  push_neg at hcon
  obtain ⟨hne, hnin⟩ := hcon
  have hall : ∀ x ∈ t, (x != ')') = true := by
    intro x hx
    have : x ≠ ')' := fun he => hnin (he ▸ hx)
    simpa using this
  have hrun : rest.takeWhile (fun x => x != ')') = t := by
    rw [hdec]
    exact takeWhile_all_stop hall (by simp)
  apply hB
  refine ⟨?_, ?_⟩
  · rw [hrun]
    simpa using hne
  · rw [hrun, hdec]
    simp

theorem findParen_spec (l : List Char) :
    (findParen l = none ∧
      ∀ pre t suf, l = pre ++ '(' :: t ++ ')' :: suf → t = [] ∨ ')' ∈ t) ∨
    ∃ run pre suf, findParen l = some run ∧ l = pre ++ '(' :: run ++ ')' :: suf ∧
      run ≠ [] ∧ ')' ∉ run ∧
      ∀ pre2 t suf2, l = pre2 ++ '(' :: t ++ ')' :: suf2 → t ≠ [] → ')' ∉ t →
        pre.length ≤ pre2.length := by
  induction l with
  | nil =>
    left
    refine ⟨rfl, ?_⟩
    intro pre t suf h
    have := congrArg List.length h
    simp at this
    omega
  | cons c rest ih =>
    by_cases hp : c = '('
    · subst hp
      by_cases hA : ((rest.takeWhile (fun x => x != ')')).isEmpty = false
          ∧ (rest.takeWhile (fun x => x != ')')).length < rest.length)
      · -- a valid group starts here
        right
        obtain ⟨hne0, hlt⟩ := hA
        have hsplit := List.takeWhile_append_dropWhile (p := fun x => x != ')') (l := rest)
        have hlen : (rest.dropWhile (fun x => x != ')')).length
            = rest.length - (rest.takeWhile (fun x => x != ')')).length := by
          have := congrArg List.length hsplit
          simp only [List.length_append] at this
          omega
        have hdpos : 0 < (rest.dropWhile (fun x => x != ')')).length := by omega
        cases hd : rest.dropWhile (fun x => x != ')') with
        | nil =>
          rw [hd] at hdpos
          simp at hdpos
        | cons d suf =>
          have hdclose : d = ')' := by
            have := dropWhile_head_false hd
            simpa using this
          refine ⟨rest.takeWhile (fun x => x != ')'), [], suf, ?_, ?_, ?_, ?_, ?_⟩
          · show findParen ('(' :: rest) = some (rest.takeWhile (fun x => x != ')'))
            simp only [findParen]
            rw [if_pos (by rfl), if_neg (by simp [hne0]), if_pos hlt]
          · subst hdclose
            rw [List.nil_append]
            show '(' :: rest = '(' :: (rest.takeWhile (fun x => x != ')') ++ ')' :: suf)
            rw [← hd, hsplit]
          · intro hcon
            rw [hcon] at hne0
            simp at hne0
          · intro hmem
            have := List.mem_takeWhile_imp hmem
            simp at this
          · intro pre2 t suf2 hdec2 ht1 ht2
            simp
      · -- no group starts here: defer to the rest
        have hred : findParen ('(' :: rest) = findParen rest := by
          simp only [findParen]
          rw [if_pos (by rfl)]
          by_cases he : (rest.takeWhile (fun x => x != ')')).isEmpty = true
          · rw [if_pos he]
          · rw [if_neg he]
            have hnl : ¬((rest.takeWhile (fun x => x != ')')).length < rest.length) := by
              intro hcon
              exact hA ⟨by simpa using he, hcon⟩
            rw [if_neg hnl]
        rcases ih with ⟨hn, hno⟩ | ⟨run, pre, suf, hf, hdec, hne, hnin, hmin⟩
        · left
          refine ⟨by rw [hred, hn], ?_⟩
          intro pre t suf hdec
          cases pre with
          | nil =>
            simp only [List.nil_append, List.cons_append, List.cons.injEq, true_and] at hdec
            exact noValidHead hA t suf hdec
          | cons c2 pre2 =>
            simp only [List.cons_append, List.cons.injEq] at hdec
            exact hno pre2 t suf hdec.2
        · right
          refine ⟨run, '(' :: pre, suf, by rw [hred, hf], ?_, hne, hnin, ?_⟩
          · rw [hdec]
            simp
          · intro pre2 t suf2 hdec2 ht1 ht2
            cases pre2 with
            | nil =>
              simp only [List.nil_append, List.cons_append, List.cons.injEq, true_and] at hdec2
              rcases noValidHead hA t suf2 hdec2 with h1 | h1
              · exact absurd h1 ht1
              · exact absurd h1 ht2
            | cons c2 pre2 =>
              simp only [List.cons_append, List.cons.injEq] at hdec2
              have := hmin pre2 t suf2 hdec2.2 ht1 ht2
              simp only [List.length_cons]
              omega
    · -- c is not a parenthesis
      have hred : findParen (c :: rest) = findParen rest := by
        simp only [findParen]
        rw [if_neg (by simpa using hp)]
      rcases ih with ⟨hn, hno⟩ | ⟨run, pre, suf, hf, hdec, hne, hnin, hmin⟩
      · left
        refine ⟨by rw [hred, hn], ?_⟩
        intro pre t suf hdec
        cases pre with
        | nil =>
          simp only [List.nil_append, List.cons_append, List.cons.injEq] at hdec
          exact absurd hdec.1 hp
        | cons c2 pre2 =>
          simp only [List.cons_append, List.cons.injEq] at hdec
          exact hno pre2 t suf hdec.2
      · right
        refine ⟨run, c :: pre, suf, by rw [hred, hf], ?_, hne, hnin, ?_⟩
        · rw [hdec]
          simp
        · intro pre2 t suf2 hdec2 ht1 ht2
          cases pre2 with
          | nil =>
            simp only [List.nil_append, List.cons_append, List.cons.injEq] at hdec2
            exact absurd hdec2.1 hp
          | cons c2 pre2 =>
            simp only [List.cons_append, List.cons.injEq] at hdec2
            have := hmin pre2 t suf2 hdec2.2 ht1 ht2
            simp only [List.length_cons]
            omega

/-! ## Output alphabet of the percent-encoder (for C7) -/

theorem hexDigit_alnum (n : Nat) (h : n < 16) :
    (hexDigit n).isDigit = true ∨ (hexDigit n).isAlpha = true := by
  interval_cases n <;> decide

theorem char_toNat_lt (c : Char) : c.toNat < 1114112 := by
  have h := c.valid
  rcases h with h | h
  · have : c.toNat < 55296 := h
    omega
  · exact h.2

theorem utf8Bytes_lt (n : Nat) (h : n < 1114112) : ∀ b ∈ utf8Bytes n, b < 256 := by
  unfold utf8Bytes
  split_ifs with h1 h2 h3 <;> intro b hb <;> simp at hb
  · omega
  · rcases hb with hb | hb <;> omega
  · rcases hb with hb | hb | hb <;> omega
  · rcases hb with hb | hb | hb | hb <;> omega

theorem quoteChar_chars (c : Char) (x : Char) (hx : x ∈ quoteChar c) :
    x.isAlpha = true ∨ x.isDigit = true ∨
      x = '_' ∨ x = '.' ∨ x = '-' ∨ x = '~' ∨ x = '/' ∨ x = '%' := by
  unfold quoteChar at hx
  by_cases hs : isSafeChar c = true
  · rw [if_pos hs] at hx
    simp at hx
    subst hx
    simp only [isSafeChar, Bool.or_eq_true, beq_iff_eq] at hs
    tauto
  · rw [if_neg hs] at hx
    rcases List.mem_flatten.mp hx with ⟨lc, hlc, hxl⟩
    rcases List.mem_map.mp hlc with ⟨b, hb, hbl⟩
    have hblt : b < 256 := utf8Bytes_lt c.toNat (char_toNat_lt c) b hb
    rw [← hbl] at hxl
    simp only [pctByte, List.mem_cons, List.not_mem_nil, or_false] at hxl
    rcases hxl with hxl | hxl | hxl
    · subst hxl
      simp
    · subst hxl
      have hd := hexDigit_alnum (b / 16) (by omega)
      tauto
    · subst hxl
      have hd := hexDigit_alnum (b % 16) (by omega)
      tauto

theorem pyQuote_chars (s : String) (x : Char) (hx : x ∈ (pyQuote s).data) :
    x.isAlpha = true ∨ x.isDigit = true ∨
      x = '_' ∨ x = '.' ∨ x = '-' ∨ x = '~' ∨ x = '/' ∨ x = '%' := by
  unfold pyQuote at hx
  rcases List.mem_flatten.mp hx with ⟨lc, hlc, hxl⟩
  rcases List.mem_map.mp hlc with ⟨c, _, hcl⟩
  exact quoteChar_chars c x (hcl ▸ hxl)

/-! ## Error propagation lemmas (for C9) -/

theorem except_bind_error {ε α β : Type} (e : ε) (f : α → Except ε β) :
    (Except.error e >>= f : Except ε β) = Except.error e := rfl

theorem except_bind_ok {ε α β : Type} (a : α) (f : α → Except ε β) :
    (Except.ok a >>= f : Except ε β) = f a := rfl

theorem mapME_error {α β : Type} (f : α → Except String β) (l : List α) (a : α)
    (ha : a ∈ l) (hf : exceptOk (f a) = false) : exceptOk (mapME f l) = false := by
  induction l with
  | nil => simp at ha
  | cons x xs ih =>
    rcases List.mem_cons.mp ha with h1 | h1
    · subst h1
      cases hfx : f a with
      | error e => simp [mapME, hfx, except_bind_error, except_bind_ok, exceptOk]
      | ok b =>
        rw [hfx] at hf
        simp [exceptOk] at hf
    · cases hfx : f x with
      | error e => simp [mapME, hfx, except_bind_error, except_bind_ok, exceptOk]
      | ok b =>
        have hxs := ih h1
        cases hm : mapME f xs with
        | error e => simp [mapME, hfx, hm, except_bind_error, except_bind_ok, exceptOk]
        | ok bs =>
          rw [hm] at hxs
          simp [exceptOk] at hxs

theorem badDescriptor_fails (folder : String) (file : Option Json)
    (h : badDescriptorFile (folder, file) = true) :
    exceptOk (parseDescriptorJ folder file) = false := by
  cases file with
  | none => rfl
  | some j =>
    simp only [badDescriptorFile, Bool.or_eq_true, Option.isNone_iff_eq_none] at h
    rcases h with h | h
    · simp [parseDescriptorJ, getReq, h, except_bind_error, except_bind_ok, exceptOk]
    · cases hr : jGet j "ref" with
      | none => simp [parseDescriptorJ, getReq, hr, except_bind_error, except_bind_ok, exceptOk]
      | some v =>
        cases hv : asStr v with
        | error e => simp [parseDescriptorJ, getReq, hr, hv, except_bind_error, except_bind_ok, exceptOk]
        | ok s => simp [parseDescriptorJ, getReq, hr, hv, h, except_bind_error, except_bind_ok, exceptOk]

theorem parseBundleJ_str (t : String) : exceptOk (parseBundleJ (Json.str t)) = false := rfl

theorem parseManifest_bad (mFile : Option Json)
    (hb : badManifestFile mFile = true) :
    exceptOk (parseManifestJ mFile) = false := by
  cases mFile with
  | none => rfl
  | some j =>
    simp only [badManifestFile] at hb
    cases hbj : jGet j "bundles" with
    | none => simp [parseManifestJ, hbj, exceptOk]
    | some v =>
      rw [hbj] at hb
      cases v with
      | arr items => simp [badBundlesValue] at hb
      | null => simp [parseManifestJ, hbj, jElems, except_bind_error, exceptOk]
      | bool b => simp [parseManifestJ, hbj, jElems, except_bind_error, exceptOk]
      | num n => simp [parseManifestJ, hbj, jElems, except_bind_error, exceptOk]
      | str s =>
        simp only [badBundlesValue] at hb
        cases hd : s.data with
        | nil => rw [hd] at hb; simp at hb
        | cons c rest =>
          have hmem : Json.str (String.mk [c])
              ∈ s.data.map (fun c => Json.str (String.mk [c])) := by
            rw [hd]
            exact List.mem_map_of_mem _ (List.mem_cons_self c rest)
          have hmap : exceptOk (mapME parseBundleJ
              (s.data.map (fun c => Json.str (String.mk [c])))) = false :=
            mapME_error _ _ _ hmem (parseBundleJ_str (String.mk [c]))
          cases hm : mapME parseBundleJ (s.data.map (fun c => Json.str (String.mk [c]))) with
          | error e =>
            simp [parseManifestJ, hbj, jElems, except_bind_ok, hm, except_bind_error, exceptOk]
          | ok bs =>
            rw [hm] at hmap
            simp [exceptOk] at hmap
      | obj kvs =>
        simp only [badBundlesValue] at hb
        cases hd : kvs with
        | nil => rw [hd] at hb; simp at hb
        | cons p rest =>
          have hmem : Json.str p.1 ∈ kvs.map (fun q => Json.str q.1) := by
            rw [hd]
            exact List.mem_map_of_mem _ (List.mem_cons_self p rest)
          have hmap : exceptOk (mapME parseBundleJ (kvs.map (fun q => Json.str q.1))) = false :=
            mapME_error _ _ _ hmem (parseBundleJ_str p.1)
          cases hm : mapME parseBundleJ (kvs.map (fun q => Json.str q.1)) with
          | error e =>
            simp [parseManifestJ, hbj, jElems, except_bind_ok, hm, except_bind_error, exceptOk]
          | ok bs =>
            rw [hm] at hmap
            simp [exceptOk] at hmap

/-! ## C1 -/

/-- C1: the "big" exclusion invariant.  Any model in the output whose
artifact or metadata file name contains "big" (case-insensitively) was
already present, with identical values, in the input manifest bundle
carrying the same ref.  Hence a big model never appears in a newly created
bundle's models (a new ref has no input bundle), and is never the
replacement source of the update phase (an overwritten slot carries the
non-big candidate's file names). -/
theorem big_model_never_introduced (args : Args) (rdn : String) (M : Manifest)
    (D : List Descriptor) (b : Bundle) (hb : b ∈ (runMerge args rdn M D).bundles)
    (m : Model) (hm : m ∈ b.models) (hbig : containsBig m = true) :
    ∃ b0 ∈ M.bundles, b0.ref = b.ref ∧ m ∈ b0.models := by
  have base : BigOK M M.bundles := fun b0 hb0 m0 hm0 _ => ⟨b0, hb0, rfl, hm0⟩
  have hsm : BigOK M (setMinVersion args (D.foldl (processDescriptor args rdn) M.bundles)) :=
    bigOK_setmin (bigOK_fold D M.bundles base)
  unfold runMerge at hb
  rw [mergePhase_def] at hb
  by_cases hsort : args.sort_by_date = true
  · rw [if_pos hsort] at hb
    exact bigOK_sortStep hsm b hb m hm hbig
  · rw [if_neg hsort] at hb
    exact hsm b hb m hm hbig

theorem big_model_never_introduced_witness :
    ∃ b0 ∈ manifestWithBig.bundles, b0.ref = bundleWithBig.ref ∧ modelBig ∈ b0.models :=
  big_model_never_introduced argsDefault "recompiled3" manifestWithBig [] bundleWithBig
    (by decide) modelBig (by decide) (by decide)

/-! ## C2 -/

theorem mem_setmin_shape (args : Args) (bs : List Bundle) (x : Bundle)
    (hx : x ∈ setMinVersion args bs) :
    ∃ y ∈ bs, x.short_name = y.short_name ∧ x.ref = y.ref := by
  cases hv : args.set_min_version with
  | none =>
    rw [setMinVersion_none args bs hv] at hx
    exact ⟨x, hx, rfl, rfl⟩
  | some v =>
    rw [setMinVersion_some args v bs hv] at hx
    rcases List.mem_map.mp hx with ⟨y, hy, hxy⟩
    exact ⟨y, hy, by rw [← hxy], by rw [← hxy]⟩

theorem mem_runMerge_shape (args : Args) (rdn : String) (M : Manifest)
    (D : List Descriptor) (b : Bundle) (hb : b ∈ (runMerge args rdn M D).bundles) :
    ∃ y ∈ D.foldl (processDescriptor args rdn) M.bundles,
      b.short_name = y.short_name ∧ b.ref = y.ref := by
  unfold runMerge at hb
  rw [mergePhase_def] at hb
  by_cases hsort : args.sort_by_date = true
  · rw [if_pos hsort] at hb
    rcases mem_reindexFrom hb with ⟨x, hx, j, hbx⟩
    have hx2 : x ∈ setMinVersion args (D.foldl (processDescriptor args rdn) M.bundles) :=
      ((pySortKey_perm bundleDateKey _).mem_iff).mp hx
    rcases mem_setmin_shape args _ x hx2 with ⟨y, hy, h1, h2⟩
    exact ⟨y, hy, by rw [hbx]; exact h1, by rw [hbx]; exact h2⟩
  · rw [if_neg hsort] at hb
    exact mem_setmin_shape args _ b hb

/-- C2 (amended): every bundle whose ref matched some discovered descriptor —
including every newly created bundle — leaves the run with an upper-case
short_name.  (Over all bundles the original claim fails: see the
counterexample, where a bundle whose ref matched no descriptor still has a
lower-case short_name in the written manifest.) -/
theorem short_name_upper_when_matched (args : Args) (rdn : String) (M : Manifest)
    (D : List Descriptor) (hnd : (M.bundles.map Bundle.ref).Nodup) (b : Bundle)
    (hb : b ∈ (runMerge args rdn M D).bundles) (hm : ∃ d ∈ D, d.ref = b.ref) :
    b.short_name = pyUpper b.short_name := by
  rcases mem_runMerge_shape args rdn M D b hb with ⟨y, hy, hsn, href⟩
  rcases hm with ⟨d, hd, hdr⟩
  have := upper_fold args rdn D M.bundles hnd y hy ⟨d, hd, by rw [hdr, href]⟩
  rw [hsn]
  exact this

/-- C2 counterexample: with a manifest holding one bundle whose short_name
is "abc" and no discovered descriptors, the written manifest still holds
"abc" — not every bundle's short_name is upper case after a run. -/
theorem short_name_not_always_upper :
    ¬(∀ b ∈ (runMerge argsDefault "recompiled3" manifestLower []).bundles,
        b.short_name = pyUpper b.short_name) := by
  decide

theorem short_name_upper_when_matched_witness :
    bundleAUpd.short_name = pyUpper bundleAUpd.short_name :=
  short_name_upper_when_matched argsDefault "recompiled3" manifestA [descA]
    (by decide) bundleAUpd (by decide) ⟨descA, by decide, by decide⟩

/-! ## C3 -/

/-- C3 counterexample: the extraction uses the FIRST parenthesized group of
the display name (`re.search` returns the leftmost match), not the last one:
on "a (x) (y)" it returns "x", while the claim asks for the text between the
last pair of parentheses, "y". -/
theorem extract_date_not_last :
    extract_date_from_display_name "a (x) (y)" = "x" ∧
      extract_date_from_display_name "a (x) (y)" ≠ "y" := by
  decide

/-- C3 (amended): for every display_name, the date-extraction step returns
the text of the LEFTMOST parenthesized group — the first position holding a
parenthesis followed by a non-empty run of non-close-paren characters and a
closing parenthesis — and the empty string when no such group exists.  (The
extracted text is then parsed in "Month Day, Year" format, see parse_date
and bundleDateKey.) -/
theorem extract_date_leftmost (s : String) :
    (extract_date_from_display_name s = "" ∧
      ∀ pre t suf, s.data = pre ++ '(' :: t ++ ')' :: suf → t = [] ∨ ')' ∈ t) ∨
    ∃ pre suf, s.data = pre ++ '(' :: (extract_date_from_display_name s).data
        ++ ')' :: suf
      ∧ (extract_date_from_display_name s).data ≠ []
      ∧ ')' ∉ (extract_date_from_display_name s).data
      ∧ ∀ pre2 t suf2, s.data = pre2 ++ '(' :: t ++ ')' :: suf2 → t ≠ [] → ')' ∉ t →
          pre.length ≤ pre2.length := by
  rcases findParen_spec s.data with ⟨hn, hno⟩ | ⟨run, pre, suf, hf, hdec, hne, hnin, hmin⟩
  · left
    refine ⟨?_, hno⟩
    rw [extract_date_from_display_name, hn]
  · right
    have hex : extract_date_from_display_name s = String.mk run := by
      rw [extract_date_from_display_name, hf]
    refine ⟨pre, suf, ?_, ?_, ?_, hmin⟩
    · rw [hex]
      exact hdec
    · rw [hex]
      exact hne
    · rw [hex]
      exact hnin

/-! ## C4 witness -/

theorem merge_idempotent_witness :
    runMerge argsDefault "recompiled3"
        (runMerge argsDefault "recompiled3" manifestA [descA, descNew]) [descA, descNew]
      = runMerge argsDefault "recompiled3" manifestA [descA, descNew] :=
  merge_idempotent argsDefault "recompiled3" manifestA [descA, descNew]
    rfl (by decide) (by decide)

/-! ## C5 -/

theorem reindexFrom_pairwise (i : Nat) (l : List Bundle)
    (h : List.Pairwise (fun a c => bundleDateKey a ≤ bundleDateKey c) l) :
    List.Pairwise (fun a c => bundleDateKey a ≤ bundleDateKey c) (reindexFrom i l) := by
  induction l generalizing i with
  | nil => simp [reindexFrom]
  | cons b bs ih =>
    rcases List.pairwise_cons.mp h with ⟨hb, hbs⟩
    refine List.pairwise_cons.mpr ⟨?_, ih (i + 1) hbs⟩
    intro y hy
    rcases mem_reindexFrom hy with ⟨x, hx, j, hyx⟩
    have hkey : bundleDateKey y = bundleDateKey x := by
      rw [hyx]
      exact rfl
    rw [hkey]
    show bundleDateKey ({ b with index := some (Int.ofNat i) }) ≤ bundleDateKey x
    exact hb x hx

theorem reindexFrom_length (i : Nat) (l : List Bundle) :
    (reindexFrom i l).length = l.length := by
  induction l generalizing i with
  | nil => rfl
  | cons b bs ih => simp [reindexFrom, ih]

/-- C5: under `--sort-by-date`, the written bundle sequence is the stable
ascending sort of the merged sequence by parsed display-name date: it is
ordered by ascending date key, bundles of equal key keep their prior
relative order (per-key filters agree, modulo the reassigned index field),
the indices are exactly 0..N-1 in sequence order, and every bundle lacking
a parseable date sorts weakly before all others. -/
theorem sort_by_date_spec (args : Args) (rdn : String) (M : Manifest)
    (D : List Descriptor) (hsort : args.sort_by_date = true) :
    (runMerge args rdn M D).bundles
        = reindexFrom 0 (pySortKey bundleDateKey (mergePhase args rdn M D).bundles)
    ∧ List.Pairwise (fun a c => bundleDateKey a ≤ bundleDateKey c)
        (runMerge args rdn M D).bundles
    ∧ (runMerge args rdn M D).bundles.map Bundle.index
        = (List.range (runMerge args rdn M D).bundles.length).map
            (fun n => some (Int.ofNat n))
    ∧ (∀ k : Nat,
        ((runMerge args rdn M D).bundles.map clearIdx).filter
            (fun x => bundleDateKey x == k)
          = ((mergePhase args rdn M D).bundles.map clearIdx).filter
              (fun x => bundleDateKey x == k))
    ∧ ∀ b ∈ (runMerge args rdn M D).bundles,
        strptimeBdY (extract_date_from_display_name b.display_name) = none →
        ∀ c ∈ (runMerge args rdn M D).bundles, bundleDateKey b ≤ bundleDateKey c := by
  have hout : (runMerge args rdn M D).bundles
      = sortStep (mergePhase args rdn M D).bundles := by
    unfold runMerge
    rw [if_pos hsort]
  refine ⟨hout, ?_, ?_, ?_, ?_⟩
  · rw [hout]
    unfold sortStep
    exact reindexFrom_pairwise 0 _ (pySortKey_sorted bundleDateKey _)
  · rw [hout]
    unfold sortStep
    rw [reindexFrom_map_index, reindexFrom_length, List.range_eq_range']
  · intro k
    rw [hout]
    unfold sortStep
    rw [reindexFrom_map_clear, List.filter_map, List.filter_map]
    exact congrArg (List.map clearIdx) (pySortKey_filter bundleDateKey k _)
  · intro b hb hnone c hc
    have h1 : bundleDateKey b = 10101 := dateKey_unparseable _ hnone
    rw [h1]
    exact dateKey_lb _

theorem sort_by_date_spec_witness :
    (runMerge argsSort "recompiled3" manifestSort []).bundles
        = reindexFrom 0 (pySortKey bundleDateKey
            (mergePhase argsSort "recompiled3" manifestSort []).bundles)
    ∧ List.Pairwise (fun a c => bundleDateKey a ≤ bundleDateKey c)
        (runMerge argsSort "recompiled3" manifestSort []).bundles
    ∧ (runMerge argsSort "recompiled3" manifestSort []).bundles.map Bundle.index
        = (List.range (runMerge argsSort "recompiled3" manifestSort []).bundles.length).map
            (fun n => some (Int.ofNat n))
    ∧ (∀ k : Nat,
        ((runMerge argsSort "recompiled3" manifestSort []).bundles.map clearIdx).filter
            (fun x => bundleDateKey x == k)
          = ((mergePhase argsSort "recompiled3" manifestSort []).bundles.map clearIdx).filter
              (fun x => bundleDateKey x == k))
    ∧ ∀ b ∈ (runMerge argsSort "recompiled3" manifestSort []).bundles,
        strptimeBdY (extract_date_from_display_name b.display_name) = none →
        ∀ c ∈ (runMerge argsSort "recompiled3" manifestSort []).bundles,
          bundleDateKey b ≤ bundleDateKey c :=
  sort_by_date_spec argsSort "recompiled3" manifestSort [] rfl

/-! ## C6 -/

/-- C6: when `--generation` and `--version` are not given, a newly created
bundle takes both fields from `get_generation_and_selector`, which returns
the `generation` and `minimum_selector_version` of a maximal-index candidate
among the existing bundles whose short_name starts with the (normalized)
descriptor short name's leading ASCII-letter run (the whole name when it
starts with a non-letter) and that carry both fields — and ("12", "12")
when no candidate exists.  In particular with RAV1 (generation "11",
index 2) and RAV2 (generation "12", index 5), a new RAV3 descriptor picks
RAV2 (higher index) and inherits generation "12", version "12". -/
theorem generation_inheritance (args : Args) (h1 : args.generation = none)
    (h2 : args.version = none) (meta : Descriptor) (bundles : List Bundle) :
    ((mkNewBundle args meta bundles).generation
        = some (get_generation_and_selector (descShortName meta) bundles).1
      ∧ (mkNewBundle args meta bundles).minimum_selector_version
        = some (get_generation_and_selector (descShortName meta) bundles).2)
    ∧ (∀ sn : String,
        (genCandidates sn bundles = [] ∧ get_generation_and_selector sn bundles = ("12", "12"))
        ∨ ∃ c ∈ genCandidates sn bundles,
            (∀ x ∈ genCandidates sn bundles, idxKey x ≤ idxKey c)
            ∧ get_generation_and_selector sn bundles
                = (c.generation.getD "", c.minimum_selector_version.getD ""))
    ∧ pyMaxBy idxKey (genCandidates "RAV3" [bundleRAV1, bundleRAV2]) = some bundleRAV2
    ∧ get_generation_and_selector "RAV3" [bundleRAV1, bundleRAV2] = ("12", "12") := by
  refine ⟨⟨?_, ?_⟩, ?_, by decide, by decide⟩
  · show some (args.generation.getD (get_generation_and_selector (descShortName meta) bundles).1)
        = some (get_generation_and_selector (descShortName meta) bundles).1
    rw [h1]
    rfl
  · show some (args.version.getD (get_generation_and_selector (descShortName meta) bundles).2)
        = some (get_generation_and_selector (descShortName meta) bundles).2
    rw [h2]
    rfl
  · intro sn
    rcases pyMaxBy_spec idxKey (genCandidates sn bundles) with ⟨hnil, hnone⟩ |
      ⟨c, hsome, hmem, hmax⟩
    · left
      refine ⟨hnil, ?_⟩
      unfold get_generation_and_selector
      rw [hnone]
    · right
      refine ⟨c, hmem, hmax, ?_⟩
      unfold get_generation_and_selector
      rw [hsome]

theorem generation_inheritance_witness :
    (mkNewBundle argsDefault descRAV3 [bundleRAV1, bundleRAV2]).generation = some "12"
      ∧ (mkNewBundle argsDefault descRAV3 [bundleRAV1, bundleRAV2]).minimum_selector_version
        = some "12" := by
  have h := generation_inheritance argsDefault rfl rfl descRAV3 [bundleRAV1, bundleRAV2]
  refine ⟨?_, ?_⟩
  · rw [h.1.1]
    decide
  · rw [h.1.2]
    decide

/-! ## C7 -/

/-- C7 counterexample: the slash is a reserved character (RFC 3986
gen-delim), yet `urllib.parse.quote` is called with its default
`safe="/"`, so a slash inside the folder component passes through
unescaped instead of becoming %2F — the URL builder does not escape every
reserved character of the folder/file components. -/
theorem url_slash_unescaped :
    pyQuote "My/Model" = "My/Model"
      ∧ make_model_url "recompiled3" "My/Model" "a b.onnx"
        = "https://raw.githubusercontent.com/hoofpilot/models/master/recompiled/recompiled3/My/Model/a%20b.onnx"
      ∧ make_model_url "recompiled3" "My/Model" "a b.onnx"
        ≠ "https://raw.githubusercontent.com/hoofpilot/models/master/recompiled/recompiled3/My%2FModel/a%20b.onnx" := by
  refine ⟨rfl, rfl, ?_⟩
  decide

/-- C7 (amended): the URL builder concatenates the fixed base path, the
unescaped recompiled-directory name, and the percent-encoded folder and
file name, where the encoding escapes every character outside ASCII
letters, digits, `_.-~` and the slash (so every reserved character except
"/" is escaped; the output alphabet is letters, digits, `_.-~/%`).  In
particular folder "My Model", file "a b.onnx", recompiled-dir "recompiled3"
yield .../recompiled/recompiled3/My%20Model/a%20b.onnx. -/
theorem make_model_url_spec (recompiled_dir folder file_name : String) :
    make_model_url recompiled_dir folder file_name
        = "https://raw.githubusercontent.com/hoofpilot/models/master/recompiled/"
          ++ recompiled_dir ++ "/" ++ pyQuote folder ++ "/" ++ pyQuote file_name
    ∧ (∀ x ∈ (pyQuote folder).data, x.isAlpha = true ∨ x.isDigit = true ∨
        x = '_' ∨ x = '.' ∨ x = '-' ∨ x = '~' ∨ x = '/' ∨ x = '%')
    ∧ (∀ x ∈ (pyQuote file_name).data, x.isAlpha = true ∨ x.isDigit = true ∨
        x = '_' ∨ x = '.' ∨ x = '-' ∨ x = '~' ∨ x = '/' ∨ x = '%')
    ∧ make_model_url "recompiled3" "My Model" "a b.onnx"
        = "https://raw.githubusercontent.com/hoofpilot/models/master/recompiled/recompiled3/My%20Model/a%20b.onnx" :=
  ⟨rfl, fun x hx => pyQuote_chars folder x hx, fun x hx => pyQuote_chars file_name x hx, rfl⟩

/-! ## C8 -/

/-- C8: without `--sort-by-date`, the `index` of every pre-existing bundle
position is unchanged by the run, whatever the other flags and updates do. -/
theorem index_frame_no_sort (args : Args) (rdn : String) (M : Manifest)
    (D : List Descriptor) (hsort : args.sort_by_date = false) (i : Nat)
    (hi : i < M.bundles.length) :
    ((runMerge args rdn M D).bundles[i]?).map Bundle.index
      = (M.bundles[i]?).map Bundle.index := by
  rw [runMerge_no_sort args rdn M D hsort, mergePhase_def]
  show ((setMinVersion args (D.foldl (processDescriptor args rdn) M.bundles))[i]?).map
      Bundle.index = _
  have h1 : ∀ (bs : List Bundle), (bs[i]?).map Bundle.index = (bs.map Bundle.index)[i]? :=
    fun bs => (List.getElem?_map Bundle.index bs i).symm
  rw [h1, h1, setmin_idx]
  rcases foldl_idx args rdn D M.bundles with ⟨t, ht⟩
  rw [ht, List.getElem?_append]
  rw [if_pos (by rw [List.length_map]; exact hi)]

theorem index_frame_no_sort_witness :
    ((runMerge argsDefault "recompiled3" manifestA [descA, descNew]).bundles[0]?).map
        Bundle.index
      = (manifestA.bundles[0]?).map Bundle.index :=
  index_frame_no_sort argsDefault "recompiled3" manifestA [descA, descNew] rfl 0
    (by decide)

/-! ## C9 -/

/-- C9 (amended): when the manifest file is absent/unreadable/invalid JSON,
lacks the `bundles` key, or carries a `bundles` value whose iteration fails
(a non-iterable value, or a nonempty string or mapping whose elements fail
the per-bundle `ref` subscript), or when any discovered descriptor is
invalid JSON or misses its required `ref`/`models` fields, the run aborts
with an error (nothing is skipped) and the manifest file on disk is left
unchanged.  (The original "lacks a `bundles` sequence" case fails: line 92
only iterates `driving_models_json["bundles"]`, never checking its type,
so with an empty string or empty mapping there and no descriptors the run
completes and rewrites the manifest — see the counterexample.) -/
theorem bad_input_fails_without_write (args : Args) (rdn : String)
    (mFile : Option Json) (dFiles : List (String × Option Json))
    (hbad : badInput mFile dFiles = true) :
    exceptOk (runChecked args rdn mFile dFiles) = false
      ∧ finalManifestFile args rdn mFile dFiles = mFile := by
  have herr : exceptOk (runChecked args rdn mFile dFiles) = false := by
    unfold runChecked
    simp only [badInput] at hbad
    rcases (Bool.or_eq_true _ _).mp hbad with hb | hb
    · have hpb := parseManifest_bad mFile hb
      cases hm : parseManifestJ mFile with
      | error e => simp [hm, except_bind_error, exceptOk]
      | ok m =>
        rw [hm] at hpb
        simp [exceptOk] at hpb
    · rcases List.any_eq_true.mp hb with ⟨f, hf, hbf⟩
      have hdesc : exceptOk (parseDescriptorJ f.1 f.2) = false := by
        have h2 : badDescriptorFile (f.1, f.2) = true := by
          rw [show (f.1, f.2) = f from rfl]
          exact hbf
        exact badDescriptor_fails f.1 f.2 h2
      have hmapd : exceptOk (mapME (fun p => parseDescriptorJ p.1 p.2) dFiles) = false :=
        mapME_error _ dFiles f hf hdesc
      cases hpm : parseManifestJ mFile with
      | error e => simp [hpm, except_bind_error, exceptOk]
      | ok m =>
        cases hmd : mapME (fun p => parseDescriptorJ p.1 p.2) dFiles with
        | error e => simp [hpm, hmd, except_bind_error, except_bind_ok, exceptOk]
        | ok ds =>
          rw [hmd] at hmapd
          simp [exceptOk] at hmapd
  refine ⟨herr, ?_⟩
  unfold finalManifestFile
  cases hr : runChecked args rdn mFile dFiles with
  | ok m =>
    rw [hr] at herr
    simp [exceptOk] at herr
  | error e => rfl

theorem bad_input_fails_without_write_witness :
    exceptOk (runChecked argsDefault "recompiled3" none []) = false
      ∧ finalManifestFile argsDefault "recompiled3" none [] = none :=
  bad_input_fails_without_write argsDefault "recompiled3" none [] rfl

/-- C9 counterexample to the original wording: a manifest whose `bundles`
value is the empty string has no `bundles` sequence, yet the run completes
without error and overwrites the manifest file (with an empty bundle
list), because the script only iterates the value and an empty string
yields no elements. -/
theorem manifest_nonsequence_completes :
    exceptOk (runChecked argsDefault "recompiled3"
        (some (Json.obj [("bundles", Json.str "")])) []) = true
      ∧ finalManifestFile argsDefault "recompiled3"
          (some (Json.obj [("bundles", Json.str "")])) []
        = some (manifestToJson { tinygrad_ref := none, bundles := [] }) :=
  ⟨rfl, rfl⟩

/-! ## C10 -/

theorem find?_decomp {α : Type} (p : α → Bool) (l : List α) (c : α)
    (h : l.find? p = some c) :
    ∃ pre post, l = pre ++ c :: post ∧ ∀ x ∈ pre, p x = false := by
  induction l with
  | nil => simp at h
  | cons a as ih =>
    by_cases hp : p a = true
    · rw [List.find?_cons_of_pos _ hp] at h
      refine ⟨[], as, ?_, by simp⟩
      rw [Option.some.inj h]
      rfl
    · rw [List.find?_cons_of_neg _ (by simpa using hp)] at h
      rcases ih h with ⟨pre, post, hdec, hpre⟩
      refine ⟨a :: pre, post, by rw [hdec]; rfl, ?_⟩
      intro x hx
      rcases List.mem_cons.mp hx with h1 | h1
      · rw [h1]
        simpa using hp
      · exact hpre x h1

/-- C10: the update phase of a bundle neither adds nor removes models: the
models list keeps its length, its types and their order; a slot is either
left untouched (when no non-big candidate shares its type — such candidates
are silently dropped) or overwritten from the FIRST non-big candidate in
descriptor order sharing its type. -/
theorem update_models_frame (bundle : Bundle) (meta_models : List Model)
    (folder recompiled_dir : String) :
    (update_bundle_models bundle meta_models folder recompiled_dir).models.length
        = bundle.models.length
    ∧ (update_bundle_models bundle meta_models folder recompiled_dir).models.map Model.type
        = bundle.models.map Model.type
    ∧ ∀ (i : Nat) (m m2 : Model), bundle.models[i]? = some m →
        (update_bundle_models bundle meta_models folder recompiled_dir).models[i]? = some m2 →
        ((∀ c ∈ filterBig meta_models, c.type ≠ m.type) ∧ m2 = m)
        ∨ ∃ pre c post, filterBig meta_models = pre ++ c :: post
            ∧ c.type = m.type
            ∧ (∀ x ∈ pre, x.type ≠ m.type)
            ∧ m2 = overwriteModel recompiled_dir folder c m := by
  refine ⟨?_, ?_, ?_⟩
  · rw [update_bundle_models_models, List.length_map]
  · rw [update_bundle_models_models, List.map_map]
    apply List.map_congr_left
    intro a _
    exact applySlot_type _ _ _ a
  · intro i m m2 hm hm2
    rw [update_bundle_models_models, List.getElem?_map, hm] at hm2
    simp at hm2
    unfold applySlot at hm2
    cases hf : (filterBig meta_models).find? (fun x => x.type == m.type) with
    | none =>
      rw [hf] at hm2
      left
      refine ⟨?_, hm2.symm⟩
      intro c hc hct
      have := List.find?_eq_none.mp hf c hc
      simp [hct] at this
    | some c =>
      rw [hf] at hm2
      right
      rcases find?_decomp _ _ c hf with ⟨pre, post, hdec, hpre⟩
      have hct : c.type = m.type := by
        have := List.find?_some hf
        simpa using this
      refine ⟨pre, c, post, hdec, hct, ?_, hm2.symm⟩
      intro x hx hxt
      have := hpre x hx
      simp [hxt] at this
